import Mathlib

/-!
Shallow embedding of the text-recognition pipeline of the
Scenes_Information_Recorder repository (src/text_recognition.py),
together with proofs settling the frozen claims about it.

Modelling conventions:
* Python `str` is Lean `String` (or `List Char` where character-level
  scanning happens).
* Python event dictionaries (`Dict[int, Dict[str, str]]`) are association
  lists in insertion order.  A Python dict can never hold two equal keys,
  so theorems about dict-shaped inputs carry a `Nodup` hypothesis on the
  key list where it matters.
* Python exceptions are modelled with `Except String` / `Option`:
  a `.error`/`none` result marks the exception Python would raise.
* `self.video_fps` is a float delivered by OpenCV; it is modelled as a
  nonnegative rational.  `int(x)` on a nonnegative value is truncation,
  i.e. the floor.
-/

/-- A Python value stored in an event record: a string, an int, or the
two-element list built by `merge_dicts` for overlapping keys. -/
inductive Val where
  | s (v : String)
  | n (v : Int)
  | list2 (a b : Val)
deriving DecidableEq, Repr

/-- A Python event record `Dict[str, str]`: fields in insertion order. -/
abbrev Record := List (String × Val)

/-- A Python event dictionary `Dict[int, Dict[str, str]]`: entries in
insertion order, keyed by frame number. -/
abbrev EventDict := List (Nat × Record)

/-- `d[k]` on a Python string-keyed dict: first binding of `k`, or the
`KeyError` Python raises when `k` is absent. -/
def getItem (r : Record) (k : String) : Except String Val :=
  match r.lookup k with
  | some v => Except.ok v
  | none => Except.error ("KeyError: " ++ k)

/-- The overlapping-key branch of `merge_dicts` (text_recognition.py,
lines 848-852): builds `{"text": [a["text"], b["text"]], "TC IN":
a["TC IN"], "TC OUT": [a["TC OUT"], b["TC OUT"]]}`, evaluating the
subscripts in Python's left-to-right order. -/
def mergeOverlap (ra rb : Record) : Except String Record := do
  let ta ← getItem ra "text"
  let tb ← getItem rb "text"
  let tcin ← getItem ra "TC IN"
  let toa ← getItem ra "TC OUT"
  let tob ← getItem rb "TC OUT"
  Except.ok [("text", Val.list2 ta tb), ("TC IN", tcin),
             ("TC OUT", Val.list2 toa tob)]

/-- First loop of `merge_dicts`: `for key in dict_a`, overlapping keys
merged, others passed through. -/
def mergeFromA (dict_b : EventDict) : EventDict → Except String EventDict
  | [] => Except.ok []
  | p :: rest =>
    match dict_b.lookup p.1 with
    | some rb => do
        let r ← mergeOverlap p.2 rb
        let tail ← mergeFromA dict_b rest
        Except.ok ((p.1, r) :: tail)
    | none => do
        let tail ← mergeFromA dict_b rest
        Except.ok (p :: tail)

/-- Key order used by Python's `sorted(merge_result.items())`: with the
unique keys of a dict, tuple comparison only ever reaches the key. -/
def keyLE (p q : Nat × Record) : Prop := p.1 ≤ q.1

instance : DecidableRel keyLE := fun p q => Nat.decLe p.1 q.1

instance : IsTotal (Nat × Record) keyLE :=
  ⟨fun p q => Nat.le_total p.1 q.1⟩

instance : IsTrans (Nat × Record) keyLE :=
  ⟨fun _ _ _ h h' => Nat.le_trans h h'⟩

/-- `dict(sorted(merge_result.items()))`: a stable sort on the key. -/
def sortByKey (d : EventDict) : EventDict := List.insertionSort keyLE d

/-- `merge_dicts` (text_recognition.py, lines 828-859).  Overlapping keys
are combined by `mergeOverlap`, keys only in `dict_b` are appended by the
second loop, and the result is sorted by key. -/
def merge_dicts (dict_a dict_b : EventDict) : Except String EventDict := do
  let fromA ← mergeFromA dict_b dict_a
  let fromB := dict_b.filter (fun p => (dict_a.lookup p.1).isNone)
  Except.ok (sortByKey (fromA ++ fromB))

/-- A VFX-extractor-shaped record, as stored by `generate_vfx_text`
(fields `TEXT`, `TC IN`, `TC OUT`, `FRAME OUT`). -/
def vfxShapedRecord (text tcin tcout : String) (frameOut : Int) : Record :=
  [("TEXT", Val.s text), ("TC IN", Val.s tcin),
   ("TC OUT", Val.s tcout), ("FRAME OUT", Val.n frameOut)]

/-! ### Timecode utility (text_recognition.py, lines 51-130) -/

/-- The decimal digit character for `d` (`d ≤ 9`; larger values never
arise, `'9'` is a dummy default). -/
def digitChar (d : Nat) : Char :=
  match d with
  | 0 => '0' | 1 => '1' | 2 => '2' | 3 => '3' | 4 => '4'
  | 5 => '5' | 6 => '6' | 7 => '7' | 8 => '8' | _ => '9'

/-- Decimal rendering worker: structural recursion on a fuel bound so
that the kernel can evaluate it (`fuel > n` always suffices). -/
def natDigitsAux : Nat → Nat → List Char
  | 0, _ => []
  | fuel + 1, n =>
    if n < 10 then [digitChar n]
    else natDigitsAux fuel (n / 10) ++ [digitChar (n % 10)]

/-- Decimal rendering of a natural number, most significant digit first:
Python's `str` on a nonnegative int. -/
def natToDigits (n : Nat) : List Char := natDigitsAux (n + 1) n

/-- Python's `f"{n:02d}"` for a nonnegative int: pad to two characters
with a leading zero. -/
def fmt2 (n : Nat) : List Char :=
  if n < 10 then '0' :: natToDigits n else natToDigits n

/-- The `HH:MM:SS:FF` string `f"{h:02d}:{m:02d}:{s:02d}:{fr:02d}"`. -/
def tcString (h m s fr : Nat) : String :=
  String.mk (fmt2 h ++ ':' :: fmt2 m ++ ':' :: fmt2 s ++ ':' :: fmt2 fr)

/-- Python `int()` truncation of a rational toward zero (for the
nonnegative fps values OpenCV delivers this is the floor). -/
def pyInt (q : Rat) : Int := q.num.tdiv q.den

/-- `convert_current_frame_to_tc` (lines 51-72): integer-division cascade
from a frame number to `HH:MM:SS:FF`, using `int(self.video_fps)` as
divisor.  `none` models the `ZeroDivisionError` Python raises when
`int(fps) == 0`; fps is nonnegative (OpenCV), so `pyInt videoFps ≤ 0`
is exactly that case. -/
def convert_current_frame_to_tc (videoFps : Rat) (frameNumber : Nat) :
    Option String :=
  if pyInt videoFps ≤ 0 then none else
  let fps := (pyInt videoFps).toNat
  let hours := frameNumber / (fps * 60 * 60)
  let fn1 := frameNumber % (fps * 60 * 60)
  let minutes := fn1 / (fps * 60)
  let fn2 := fn1 % (fps * 60)
  let seconds := fn2 / fps
  let frames := fn2 % fps
  some (tcString hours minutes seconds frames)

/-- `time_str.split(":")` on the character list of the string. -/
def splitColon : List Char → List (List Char)
  | [] => [[]]
  | c :: cs =>
    if c = ':' then [] :: splitColon cs
    else
      match splitColon cs with
      | [] => [[c]]
      | r :: rs => (c :: r) :: rs

/-- Python `int(part)` on a split piece: every character must be a digit
(the timecode pieces only ever hold digits); `none` models the
`ValueError` on anything else. -/
def parsePiece (cs : List Char) : Option Nat :=
  if cs ≠ [] ∧ cs.all (fun c => 48 ≤ c.toNat ∧ c.toNat ≤ 57) then
    some (cs.foldl (fun acc c => acc * 10 + (c.toNat - 48)) 0)
  else none

/-- `read_tc_add_one_frame` (lines 74-98): sentinel strings pass through;
otherwise split on `:`, parse four ints, add a frame and cascade the
carries.  The frame rollover compares the int frame count against the
float `self.video_fps` (not `int(fps)`).  `none` models the `ValueError`
raised when the string does not split into exactly four int pieces. -/
def read_tc_add_one_frame (videoFps : Rat) (time_str : String) :
    Option String :=
  if time_str = "WRONG TC" ∨ time_str = "EMPTY TC" then some time_str else
  match (splitColon time_str.data).mapM parsePiece with
  | some [h0, m0, s0, f0] =>
    let f1 := f0 + 1
    let f2 := if (f1 : Rat) = videoFps then 0 else f1
    let s1 := if (f1 : Rat) = videoFps then s0 + 1 else s0
    let s2 := if s1 = 60 then 0 else s1
    let m1 := if s1 = 60 then m0 + 1 else m0
    let m2 := if m1 = 60 then 0 else m1
    let h1 := if m1 = 60 then h0 + 1 else h0
    some (tcString h1 m2 s2 f2)
  | _ => none

/-- `tc_cleanup_from_potential_errors` (lines 100-130).  The OCR output
it receives is a list of line lists; an empty list or empty first line
yields `EMPTY TC`.  Otherwise the first line is joined and scanned by
`re.findall(r"(\d{2})")`; the first four two-digit runs are assembled as
`HH:MM:SS:FF`, and fewer than four yield `WRONG TC`. -/
def findTwoDigitRuns : List Char → List (List Char)
  | a :: b :: rest =>
    if (48 ≤ a.toNat ∧ a.toNat ≤ 57) ∧ (48 ≤ b.toNat ∧ b.toNat ≤ 57) then
      [a, b] :: findTwoDigitRuns rest
    else findTwoDigitRuns (b :: rest)
  | _ => []

def tc_cleanup_from_potential_errors (tc_text : List (List String))
    (frame_number : Nat) : String :=
  match tc_text with
  | [] => "EMPTY TC"
  | line :: _ =>
    if line = [] then "EMPTY TC" else
    let joined_text := String.join line
    match findTwoDigitRuns joined_text.data with
    | p0 :: p1 :: p2 :: p3 :: _ =>
      String.mk (p0 ++ ':' :: p1 ++ ':' :: p2 ++ ':' :: p3)
    | _ => "WRONG TC"

/-- The non-integer frame rate 23.5 = 47/2 in reduced constructor form,
so that the kernel can evaluate with it. -/
def halfFps : Rat := ⟨47, 2, by decide, by decide⟩

/-! ### `update_start_frame` (text_recognition.py, lines 305-325) -/

/-- The in-place `for i, (start, end) in enumerate(updated_ranges)` loop:
each surviving range whose span contains `start_frame` gets its start
replaced by `start_frame`. -/
def clipRangesLoop (start_frame : Nat) : List (Nat × Nat) → List (Nat × Nat)
  | [] => []
  | r :: rest =>
    (if r.1 ≤ start_frame ∧ start_frame ≤ r.2 then (start_frame, r.2) else r)
      :: clipRangesLoop start_frame rest

/-- `update_start_frame`: keep ranges with `end >= start_frame`, then clip
the start of any kept range containing `start_frame`. -/
def update_start_frame (start_frame : Nat) (ranges : List (Nat × Nat)) :
    List (Nat × Nat) :=
  clipRangesLoop start_frame (ranges.filter (fun r => start_frame ≤ r.2))

/-! ### `construct_most_common_word` (text_recognition.py, lines 802-826) -/

/-- The key list of `collections.Counter(characters)`: distinct characters
in first-occurrence order. -/
def counterKeys (cs : List Char) : List Char :=
  cs.foldl (fun ks c => if c ∈ ks then ks else ks ++ [c]) []

/-- `max(items, key=count)` over the counter keys: Python's `max` keeps
the first element attaining the maximum, replacing only on a strictly
larger count.  `none` models the `IndexError` of `most_common(1)[0]` on
an empty counter. -/
def mostCommonChar (cs : List Char) : Option Char :=
  match counterKeys cs with
  | [] => none
  | k :: ks =>
    some (ks.foldl (fun best c => if cs.count best < cs.count c then c
                                  else best) k)

/-- Python `str.rstrip()`: strips trailing whitespace characters. -/
def isPySpace (c : Char) : Bool :=
  c = ' ' ∨ c = '\t' ∨ c = '\n' ∨ c = '\x0d' ∨ c = '\x0b' ∨ c = '\x0c'

def rstrip (cs : List Char) : List Char :=
  (cs.reverse.dropWhile isPySpace).reverse

/-- One transposed column of the padded strings: character `i` of every
padded row (all rows have length `max_length`, so the default is never
used on the actual call sites). -/
def columnOf (padded : List (List Char)) (i : Nat) : List Char :=
  padded.map (fun cs => cs.getD i ' ')

/-- `max(len(s) for s in text_values)` (on a non-empty list; the fold
start 0 is harmless since lengths are nonnegative). -/
def maxLenOf (text_values : List String) : Nat :=
  (text_values.map String.length).foldl Nat.max 0

/-- `[s.ljust(max_length) for s in text_values]`. -/
def paddedOf (text_values : List String) : List (List Char) :=
  text_values.map
    (fun s => s.data ++ List.replicate (maxLenOf text_values - s.length) ' ')

/-- `construct_most_common_word`: right-pad every string to the maximum
length, take the most common character of each column, concatenate and
right-strip.  `none` models the `ValueError` of `max()` on an empty
input list. -/
def construct_most_common_word (text_values : List String) :
    Option String :=
  if text_values = [] then none else
  ((List.range (maxLenOf text_values)).mapM
      (fun i => mostCommonChar (columnOf (paddedOf text_values) i))).map
    (fun chars => String.mk (rstrip chars))

/-! ### `remove_all_but_border_cases_found` (text_recognition.py,
lines 745-800) -/

/-- The run-splitting loop over `text_dict.keys()`: `keys_series` grows
while the next key is exactly one above its last element (the comparison
`keys_series[-1] == i - 1` is on Python ints, hence over `Int`); when the
chain breaks, the pair `(first, last)` of the finished series is emitted.
The final non-empty series is flushed after the loop. -/
def runsAux : List Nat → List Nat → List (Nat × Nat)
  | series, [] =>
    match series with
    | [] => []
    | h :: t => [(h, (h :: t).getLast (List.cons_ne_nil h t))]
  | series, i :: rest =>
    match series with
    | [] => runsAux [i] rest
    | h :: t =>
      if ((h :: t).getLast (List.cons_ne_nil h t) : Int) = (i : Int) - 1 then
        runsAux (h :: t ++ [i]) rest
      else
        (h, (h :: t).getLast (List.cons_ne_nil h t)) :: runsAux [i] rest

/-- `first_and_last_key` as computed from the dict's key list. -/
def firstAndLastKeys (keys : List Nat) : List (Nat × Nat) := runsAux [] keys

/-- `text_dict[k]` on the frame-keyed dict, with its `KeyError`. -/
def getFrame (d : EventDict) (k : Nat) : Except String Record :=
  match d.lookup k with
  | some r => Except.ok r
  | none => Except.error ("KeyError: frame " ++ toString k)

/-- A record field that must be a string (the pipeline stores strings
under `TEXT`/`TC`); an absent field is Python's `KeyError`, a non-string
one the `TypeError` its later string use would raise. -/
def getStrField (r : Record) (k : String) : Except String String :=
  match r.lookup k with
  | some (Val.s v) => Except.ok v
  | some _ => Except.error ("TypeError: " ++ k)
  | none => Except.error ("KeyError: " ++ k)

/-- The list comprehension
`[details["TEXT"] for key, details in text_dict.items() if a <= key <= b]`. -/
def collectTexts (text_dict : EventDict) (a b : Nat) :
    Except String (List String) :=
  (text_dict.filter (fun p => a ≤ p.1 ∧ p.1 ≤ b)).mapM
    (fun p => getStrField p.2 "TEXT")

/-- Lift of `construct_most_common_word` into `Except`: the `none` case
is the `ValueError` Python's `max()` raises on an empty sequence. -/
def okOrEmptyErr (o : Option String) : Except String String :=
  match o with
  | some t => Except.ok t
  | none => Except.error "ValueError: max() arg is an empty sequence"

/-- Body of the `for ranges in first_and_last_key` loop for one run
`(a, b)`: read the last frame's TC, add one frame (falling back to the
unincremented TC on the `ValueError` the `except` catches), build the
consensus text and the new event record keyed by the run's first frame. -/
def borderEventFor (videoFps : Rat) (text_dict : EventDict) (a b : Nat) :
    Except String Record := do
  let rb ← getFrame text_dict b
  let tcB ← getStrField rb "TC"
  let tc_out := (read_tc_add_one_frame videoFps tcB).getD tcB
  let texts ← collectTexts text_dict a b
  let most_probable_text ← okOrEmptyErr (construct_most_common_word texts)
  let ra ← getFrame text_dict a
  let tcA ← getStrField ra "TC"
  Except.ok [("TEXT", Val.s most_probable_text),
             ("TC IN", Val.s tcA),
             ("TC OUT", Val.s tc_out),
             ("FRAME OUT", Val.n (b + 1))]

/-- The `for ranges in first_and_last_key` loop itself. -/
def buildBorderEvents (videoFps : Rat) (text_dict : EventDict) :
    List (Nat × Nat) → Except String EventDict
  | [] => Except.ok []
  | (a, b) :: rest => do
    let ev ← borderEventFor videoFps text_dict a b
    let tail ← buildBorderEvents videoFps text_dict rest
    Except.ok ((a, ev) :: tail)

/-- `remove_all_but_border_cases_found`: split the dict's keys into runs
of consecutive frames and emit one bordered event per run. -/
def remove_all_but_border_cases_found (videoFps : Rat)
    (text_dict : EventDict) : Except String EventDict :=
  buildBorderEvents videoFps text_dict
    (firstAndLastKeys (text_dict.map Prod.fst))

/-- An ADR-scan record `{TEXT: ..., TC: ...}` as stored by
`generate_adr_text` and `check_previous_or_next_frames`. -/
def adrShapedRecord (text tc : String) : Record :=
  [("TEXT", Val.s text), ("TC", Val.s tc)]

/-! ### `match_text` (text_recognition.py, lines 132-148)

`re.search(beginning_chars + r"\s*(.+)", text, re.IGNORECASE)`.  Every
call site feeds single lines produced by `str.splitlines`, so the text
holds no newline; on such text the pattern matches at the first
case-insensitive occurrence of the prefix that has at least one further
character after it, and the matched group is the whole tail from that
occurrence.  The first three characters of the match are uppercased. -/

def lowerEq (a b : Char) : Bool := a.toLower = b.toLower

/-- Scan for the first position where the (case-insensitive) pattern
occurs followed by at least one more character; return the tail of the
text from that position. -/
def searchPrefixed (pat : List Char) : List Char → Option (List Char)
  | [] => none
  | c :: cs =>
    if ((c :: cs).take pat.length).length = pat.length
        ∧ (((c :: cs).take pat.length).zip pat).all (fun p => lowerEq p.1 p.2)
        ∧ (c :: cs).drop pat.length ≠ [] then
      some (c :: cs)
    else searchPrefixed pat cs

def match_text (text : String) (beginning_chars : String) : String :=
  match searchPrefixed beginning_chars.data text.data with
  | none => ""
  | some matched =>
    String.mk ((matched.take 3).map Char.toUpper ++ matched.drop 3)

/-! ### `check_previous_or_next_frames` (text_recognition.py,
lines 582-656)

The two impure reads are oracle parameters: `ocrText n` models
`read_text_from_image` on `temp/text_imgs/frame_n.png` (the single list
of non-empty lines it wraps; `none` is the uncaught
`FileNotFoundError`), and `ocrTc n` the same on
`temp/tc_imgs/frame_n.png`. -/

/-- `list.index(x)`: index of the first occurrence, `none` for the
`ValueError` on a missing element. -/
def pyIndex : List Nat → Nat → Option Nat
  | [], _ => none
  | y :: ys, x => if y = x then some 0 else (pyIndex ys x).map (· + 1)

/-- The slice taken before the walk: `frames_to_check[index-1::-1]` in
mode "previous" (for `index = 0` Python's `-1` start means the whole
list reversed), `frames_to_check[index+1:]` in mode "next"; any other
mode leaves `sliced_list` unbound (`none`). -/
def slicedFrames (frames : List Nat) (index : Nat) (mode : String) :
    Option (List Nat) :=
  if mode = "previous" then
    some (if index = 0 then frames.reverse else (frames.take index).reverse)
  else if mode = "next" then some (frames.drop (index + 1))
  else none

/-- One line of the inner `for line in text[0]` loop: on an ADR match,
read and clean the frame's timecode and store `{TEXT, TC}` under the
frame if it is not yet present; the state is `(found_adr_text,
found_any_adr)`. -/
def adrLineStep (ocrTc : Nat → Option (List String)) (curr_frame : Nat)
    (st : EventDict × Bool) (line : String) :
    Except String (EventDict × Bool) :=
  let matched_text := match_text line "ADR"
  if matched_text = "" then Except.ok st
  else
    match ocrTc curr_frame with
    | none => Except.error "FileNotFoundError"
    | some tc_lines =>
      let frame_tc := tc_cleanup_from_potential_errors [tc_lines] curr_frame
      if (st.1.lookup curr_frame).isSome then Except.ok (st.1, true)
      else
        Except.ok
          (st.1 ++ [(curr_frame, adrShapedRecord matched_text frame_tc)],
           true)

/-- The `for curr_frame in sliced_list` walk.  State: the `boundry`
flag, the previous frame (`last_frame`), the accumulating dict, and the
last value bound to `curr_frame` (`none` while the loop has not run).
`text = [lines]` is a one-element list, so Python's `if not text` can
never fire; the loop breaks on a frame gap `> 1` or, after reading the
image, on a set `boundry` flag. -/
def adrWalk (ocrText ocrTc : Nat → Option (List String)) :
    List Nat → Bool → Option Nat → EventDict → Option Nat →
    Except String (EventDict × Option Nat)
  | [], _, _, found, lastVisited => Except.ok (found, lastVisited)
  | curr :: rest, boundry, last_frame, found, lastVisited =>
    if (match last_frame with
        | some lf => decide (1 < ((curr : Int) - (lf : Int)).natAbs)
        | none => false) then
      Except.ok (found, lastVisited)
    else
      match ocrText curr with
      | none => Except.error "FileNotFoundError"
      | some lines =>
        if boundry then Except.ok (found, lastVisited)
        else do
          let st ← lines.foldlM (adrLineStep ocrTc curr) (found, false)
          adrWalk ocrText ocrTc rest
            (if !st.2 then true else boundry) (some curr) st.1 (some curr)

/-- The two return shapes of `check_previous_or_next_frames`: mode
"next" returns `(found_adr_text, new_index)`, mode "previous" the dict
alone. -/
inductive AdrReturn where
  | single (found : EventDict)
  | pair (found : EventDict) (new_index : Nat)
deriving DecidableEq, Repr

/-- `check_previous_or_next_frames`: slice, walk, and in mode "next"
re-derive the resume index from the last visited `curr_frame` (the
`UnboundLocalError` when the walk never ran is the `none` case). -/
def check_previous_or_next_frames (ocrText ocrTc : Nat → Option (List String))
    (frames_to_check : List Nat) (frame : Nat) (found_adr_text : EventDict)
    (mode : String) : Except String AdrReturn := do
  let index ← match pyIndex frames_to_check frame with
    | some i => Except.ok i
    | none => Except.error "ValueError: frame is not in list"
  let sliced_list ← match slicedFrames frames_to_check index mode with
    | some l => Except.ok l
    | none => Except.error "UnboundLocalError: sliced_list"
  let r ← adrWalk ocrText ocrTc sliced_list false none found_adr_text none
  if mode = "next" then
    match r.2 with
    | none => Except.error "UnboundLocalError: curr_frame"
    | some curr =>
      match pyIndex frames_to_check curr with
      | some new_index => Except.ok (AdrReturn.pair r.1 new_index)
      | none => Except.error "ValueError: frame is not in list"
  else Except.ok (AdrReturn.single r.1)

/-! ### `generate_vfx_text` (text_recognition.py, lines 435-580)

Impure pieces become parameters: `sampler` models
`evenly_spaced_nums_from_range(range, q_nums=8, endpoint=False)`
(`np.linspace` over float64, external to the model), `ocrText n` models
`read_text_from_image` on `temp/text_imgs/frame_n.png` (`none` =
`FileNotFoundError`), and `tcOcrVfx n` models the
`generate_processed_pictures` + `read_text_from_image(..., "tc")` pair
on `temp/first_last_scene_frames/frame_n.png` (`none` = a
`FileNotFoundError` from either step).  The `frames_not_found`
diagnostic list only feeds a final `print` and is not modelled. -/

/-- The per-range OCR collection loop: skip sampled ids below the range
start (`continue`), stop at ids past `range[1] - 1` (`break`, compared
over Python ints), skip missing images, and keep the `" \n"`-join of the
VFX-matched lines of each frame. -/
def vfxCollectTexts (ocrText : Nat → Option (List String)) (a b : Nat) :
    List Nat → List String
  | [] => []
  | frame_id :: rest =>
    if frame_id < a then vfxCollectTexts ocrText a b rest
    else if (b : Int) - 1 < (frame_id : Int) then []
    else
      match ocrText frame_id with
      | none => vfxCollectTexts ocrText a b rest
      | some lines =>
        let text_in_current_frame :=
          (lines.map (fun l => match_text l "VFX")).filter (fun t => t ≠ "")
        if text_in_current_frame = [] then vfxCollectTexts ocrText a b rest
        else String.intercalate " \n" text_in_current_frame ::
          vfxCollectTexts ocrText a b rest

/-- The locals of the scan that survive from one range to the next:
the dict under construction and the last values bound to
`first_frame_tc` / `last_frame_tc` (`none` = still unbound; a reuse of
an unbound one is Python's `UnboundLocalError`). -/
structure VfxScanState where
  found_vfx_text : EventDict
  first_frame_tc : Option String
  last_frame_tc : Option String

/-- The `try`/`except FileNotFoundError` block around the last frame of
the scene: on success, clean the OCR timecode and increment it (the
`except ValueError` catch turns an unparsable TC into itself); on a
missing image, reuse the last bound `last_frame_tc` (both for the local
and for `tc_out`), which is an `UnboundLocalError` if it was never
bound. -/
def vfxLastTcStep (tcOcrVfx : Nat → Option (List String)) (videoFps : Rat)
    (stale : Option String) (last_frame_of_scene : Nat) :
    Except String (Option String × String) :=
  match tcOcrVfx last_frame_of_scene with
  | some tc_lines =>
    let cleaned :=
      tc_cleanup_from_potential_errors [tc_lines] last_frame_of_scene
    Except.ok (some cleaned,
      (read_tc_add_one_frame videoFps cleaned).getD cleaned)
  | none =>
    match stale with
    | some staleTc => Except.ok (some staleTc, staleTc)
    | none => Except.error "UnboundLocalError: last_frame_tc"

/-- The body of `for frame_range in potential_frames_ranges_with_vfx_text`. -/
def vfxRangeStep (sampler : Nat × Nat → List Nat)
    (ocrText tcOcrVfx : Nat → Option (List String)) (videoFps : Rat)
    (st : VfxScanState) (frame_range : Nat × Nat) :
    Except String VfxScanState := do
  let a := frame_range.1
  let b := frame_range.2
  let numbers_to_check := sampler frame_range
  let text_found_in_a_range := vfxCollectTexts ocrText a b numbers_to_check
  if text_found_in_a_range = [] then Except.ok st else do
  let most_probable_text ←
    okOrEmptyErr (construct_most_common_word text_found_in_a_range)
  let first_frame_of_scene := a
  let last_frame_of_scene := b - 1
  let first_frame_tc : Option String :=
    match tcOcrVfx first_frame_of_scene with
    | some tc_lines =>
      some (tc_cleanup_from_potential_errors [tc_lines] first_frame_of_scene)
    | none => st.first_frame_tc
  let lastPair ← vfxLastTcStep tcOcrVfx videoFps st.last_frame_tc
    last_frame_of_scene
  let last_frame_tc := lastPair.1
  let tc_out := lastPair.2
  if (st.found_vfx_text.lookup first_frame_of_scene).isSome then
    Except.ok ⟨st.found_vfx_text, first_frame_tc, last_frame_tc⟩
  else
    match first_frame_tc with
    | none => Except.error "UnboundLocalError: first_frame_tc"
    | some tcin =>
      Except.ok ⟨st.found_vfx_text ++
        [(first_frame_of_scene,
          [("TEXT", Val.s most_probable_text), ("TC IN", Val.s tcin),
           ("TC OUT", Val.s tc_out), ("FRAME OUT", Val.n b)])],
        first_frame_tc, last_frame_tc⟩

/-- `generate_vfx_text`: fold the range step over the candidate scene
ranges, starting from an empty dict and unbound timecode locals.  The
`frames_with_embedded_text_id` argument is unused in the source body
(only commented-out code mentions it) and is kept for fidelity. -/
def generate_vfx_text (sampler : Nat × Nat → List Nat)
    (ocrText tcOcrVfx : Nat → Option (List String)) (videoFps : Rat)
    (potential_frames_ranges_with_vfx_text : List (Nat × Nat))
    (frames_with_embedded_text_id : List Nat) :
    Except String EventDict :=
  (potential_frames_ranges_with_vfx_text.foldlM
      (vfxRangeStep sampler ocrText tcOcrVfx videoFps) ⟨[], none, none⟩).map
    VfxScanState.found_vfx_text

/-- The C8 invariant: every event's `FRAME OUT` exceeds the frame-number
key it is stored under. -/
def FrameOutGtKey (d : EventDict) : Prop :=
  ∀ p ∈ d, ∃ fo : Int,
    p.2.lookup "FRAME OUT" = some (Val.n fo) ∧ (p.1 : Int) < fo

/-! ### Support definitions for claim C5 -/

/-- Strict key order on dict entries. -/
def keyLT (p q : Nat × Record) : Prop := p.1 < q.1

instance : DecidableRel keyLT := fun p q => Nat.decLt p.1 q.1

instance : IsAntisymm (Nat × Record) keyLT :=
  ⟨fun p q h h' => absurd (Nat.lt_trans h h') (Nat.lt_irrefl _)⟩

/-! ### Support definitions for claim C7 -/

/-- The set of distinct characters in first-occurrence order, as a
recursion (the spec's "insertion order of the counter"). -/
def dedupF : List Char → List Char
  | [] => []
  | c :: cs => c :: (dedupF cs).filter (fun x => x ≠ c)

def specBestChar (col : List Char) : Option Char :=
  col.find? (fun x => col.all (fun d => decide (col.count d ≤ col.count x)))

/-! ### Support definitions for claim C3 -/

/-- The closed integer interval `[a, b]` as a list. -/
def closedRange (a b : Nat) : List Nat := List.range' a (b + 1 - a)

/-- Decidable well-formedness of one ADR entry: the record has exactly
the `{TEXT, TC}` shape with string values and a TC that
`read_tc_add_one_frame` can parse. -/
def WellFormedAdrEntry (videoFps : Rat) (r : Record) : Bool :=
  match r with
  | [("TEXT", Val.s _), ("TC", Val.s tc)] =>
    (read_tc_add_one_frame videoFps tc).isSome
  | _ => false

/-- What one run `(a, b)` needs from the dict, and what the emitted
event looks like: `TEXT` is the consensus over the run's TEXT values,
`TC IN` the first frame's TC, `TC OUT` the last frame's TC plus one
frame, `FRAME OUT` the last frame plus one. -/
def BorderEventSpec (videoFps : Rat) (d : EventDict) (r : Nat × Nat)
    (p : Nat × Record) : Prop :=
  ∃ ta tca tb tcb tcb1 texts cons,
    d.lookup r.1 = some (adrShapedRecord ta tca)
    ∧ d.lookup r.2 = some (adrShapedRecord tb tcb)
    ∧ read_tc_add_one_frame videoFps tcb = some tcb1
    ∧ collectTexts d r.1 r.2 = Except.ok texts
    ∧ construct_most_common_word texts = some cons
    ∧ p = (r.1, [("TEXT", Val.s cons), ("TC IN", Val.s tca),
                 ("TC OUT", Val.s tcb1), ("FRAME OUT", Val.n (r.2 + 1))])

/-- The run data alone (the first five conjuncts of
`BorderEventSpec`). -/
def BorderRunData (videoFps : Rat) (d : EventDict) (r : Nat × Nat) : Prop :=
  ∃ ta tca tb tcb tcb1 texts cons,
    d.lookup r.1 = some (adrShapedRecord ta tca)
    ∧ d.lookup r.2 = some (adrShapedRecord tb tcb)
    ∧ read_tc_add_one_frame videoFps tcb = some tcb1
    ∧ collectTexts d r.1 r.2 = Except.ok texts
    ∧ construct_most_common_word texts = some cons

/-- Eleven consecutive ADR-tagged frames 1500-1510 with sequential
timecodes. -/
def adrRunExample : EventDict :=
  (List.range 11).map
    (fun i => (1500 + i, adrShapedRecord "ADR: Example" (tcString 0 1 0 i)))

example :
    merge_dicts
      [(0, vfxShapedRecord "VFX: a" "00:00:00:01" "00:00:00:05" 5)]
      [(0, vfxShapedRecord "ADR: b" "00:00:00:02" "00:00:00:06" 6)] =
    Except.error "KeyError: text" := rfl

example :
    merge_dicts
      [(7, vfxShapedRecord "VFX: a" "00:00:00:01" "00:00:00:05" 5)]
      [(3, vfxShapedRecord "ADR: b" "00:00:00:02" "00:00:00:06" 6)] =
    Except.ok
      [(3, vfxShapedRecord "ADR: b" "00:00:00:02" "00:00:00:06" 6),
       (7, vfxShapedRecord "VFX: a" "00:00:00:01" "00:00:00:05" 5)] := rfl

example : convert_current_frame_to_tc 24 23 = some "00:00:00:23" := rfl

example : convert_current_frame_to_tc 24 24 = some "00:00:01:00" := rfl

example : convert_current_frame_to_tc 25 24 = some "00:00:00:24" := rfl

example : convert_current_frame_to_tc 25 25 = some "00:00:01:00" := rfl

example : read_tc_add_one_frame 24 "00:00:00:23" = some "00:00:01:00" := rfl

example : read_tc_add_one_frame 24 "WRONG TC" = some "WRONG TC" := rfl

theorem halfFps_eq : (47 : Rat)/2 = halfFps := by
  have h : (47 : Rat)/2 = Rat.divInt 47 2 := by norm_num [Rat.divInt]
  rw [h]; rfl

example : read_tc_add_one_frame halfFps "00:00:00:22" =
    some "00:00:00:23" := by decide

example : convert_current_frame_to_tc halfFps 23 =
    some "00:00:01:00" := by decide

example : tc_cleanup_from_potential_errors [[]] 0 = "EMPTY TC" := rfl

example : tc_cleanup_from_potential_errors [["01:02:03:20"]] 0 =
    "01:02:03:20" := rfl

example : tc_cleanup_from_potential_errors [["10 04 05:12"]] 0 =
    "10:04:05:12" := rfl

example : tc_cleanup_from_potential_errors [["1"]] 0 = "WRONG TC" := rfl

example :
    update_start_frame 150 [(0,100),(100,200),(200,300),(300,400),(400,500)] =
    [(150,200),(200,300),(300,400),(400,500)] := by decide

example :
    construct_most_common_word
      ["ADR: Example", "ADR: Example", "ADR: Examp!?", "ADR: Examole"] =
    some "ADR: Example" := by decide

example : construct_most_common_word [] = none := by decide

example : construct_most_common_word ["ab ", "ab "] = some "ab" := by decide

example :
    remove_all_but_border_cases_found 25
      [(10, adrShapedRecord "ADR: a" "00:00:00:10"),
       (11, adrShapedRecord "ADR: a" "00:00:00:11"),
       (20, adrShapedRecord "ADR: b" "00:00:00:20")] =
    Except.ok
      [(10, [("TEXT", Val.s "ADR: a"), ("TC IN", Val.s "00:00:00:10"),
             ("TC OUT", Val.s "00:00:00:12"), ("FRAME OUT", Val.n 12)]),
       (20, [("TEXT", Val.s "ADR: b"), ("TC IN", Val.s "00:00:00:20"),
             ("TC OUT", Val.s "00:00:00:21"), ("FRAME OUT", Val.n 21)])] :=
  rfl

example : match_text "vfX: abcDE" "VFX" = "VFX: abcDE" := by decide

example : match_text "ADR: 123" "VFX" = "" := by decide

example : match_text "x adr:ok" "ADR" = "ADR:ok" := by decide

example : match_text "VFX" "VFX" = "" := by decide

example :
    generate_vfx_text (fun r => [r.1 + 1])
      (fun _ => some ["VFX: boom", "other"])
      (fun n => some [tcString 0 0 0 (n % 10)]) 25
      [(10, 14)] [] =
    Except.ok
      [(10, [("TEXT", Val.s "VFX: boom"), ("TC IN", Val.s "00:00:00:00"),
             ("TC OUT", Val.s "00:00:00:04"), ("FRAME OUT", Val.n 14)])] :=
  rfl

/-! ## Claim C1 -/

/-- Claim C1 (code behaviour at the failing input): `merge_dicts` reads
`dict_a[key]["text"]` and `dict_b[key]["text"]` in lower case, but the
VFX and ADR extractors store the field as upper-case `TEXT`; hence for
any key present in both dictionaries whose `dict_a` record has no
lower-case `text` field, the merge raises `KeyError: text` instead of
returning a multi-valued record preserving both TEXT values. -/
theorem merge_dicts_raises_keyerror_on_overlap (k : Nat) (ra rb : Record)
    (h : ra.lookup "text" = none) :
    merge_dicts [(k, ra)] [(k, rb)] = Except.error "KeyError: text" := by
  simp [merge_dicts, mergeFromA, mergeOverlap, getItem, h, Bind.bind, Except.bind]

/-- Claim C1 witness: two singleton dictionaries with the extractor
record shape sharing key 0. -/
theorem merge_dicts_raises_keyerror_on_overlap_witness :
    merge_dicts
      [(0, vfxShapedRecord "VFX: crowd" "10:00:00:01" "10:00:00:09" 200)]
      [(0, vfxShapedRecord "ADR: John" "10:00:00:02" "10:00:00:08" 199)] =
    Except.error "KeyError: text" :=
  merge_dicts_raises_keyerror_on_overlap 0
    (vfxShapedRecord "VFX: crowd" "10:00:00:01" "10:00:00:09" 200)
    (vfxShapedRecord "ADR: John" "10:00:00:02" "10:00:00:08" 199) (by decide)

/-! ## Claim C6 -/

/-- The clip loop is the pointwise clip map. -/
theorem clipRangesLoop_eq_map (sf : Nat) (l : List (Nat × Nat)) :
    clipRangesLoop sf l =
      l.map (fun r => if r.1 ≤ sf ∧ sf ≤ r.2 then (sf, r.2) else r) := by
  induction l with
  | nil => rfl
  | cons r rest ih => simp [clipRangesLoop, ih]

/-- Claim C6: the start-frame filter drops exactly the ranges whose end
lies before the start frame, replaces the start of any remaining range
containing the start frame by the start frame, and leaves the others
unchanged; in particular filtering
`[[0,100],[100,200],[200,300],[300,400],[400,500]]` at 150 yields
`[[150,200],[200,300],[300,400],[400,500]]`. -/
theorem update_start_frame_filters_and_clips (sf : Nat)
    (ranges : List (Nat × Nat)) :
    update_start_frame sf ranges =
      (ranges.filter (fun r => !(r.2 < sf))).map
        (fun r => if r.1 ≤ sf ∧ sf ≤ r.2 then (sf, r.2) else r)
    ∧ update_start_frame 150
        [(0,100),(100,200),(200,300),(300,400),(400,500)] =
      [(150,200),(200,300),(300,400),(400,500)] := by
  refine ⟨?_, by decide⟩
  rw [update_start_frame, clipRangesLoop_eq_map]
  congr 1
  apply List.filter_congr
  intro r _
  simp only [← decide_not, decide_eq_decide]
  omega

/-! ## Claim C4 -/

/-- Claim C4: timecode sanitization returns `EMPTY TC` on an empty line
list or empty first line; otherwise it joins the first line, scans it
for two-digit runs, assembles the first four as `HH:MM:SS:FF`, and
returns `WRONG TC` when fewer than four runs exist — with the four
concrete instances from the spec. -/
theorem tc_cleanup_behaviour (tc_text : List (List String)) (f : Nat) :
    ((tc_text = [] ∨ tc_text.head? = some []) →
      tc_cleanup_from_potential_errors tc_text f = "EMPTY TC")
    ∧ (∀ line rest, tc_text = line :: rest → line ≠ [] →
        (∀ p0 p1 p2 p3 more,
          findTwoDigitRuns (String.join line).data
              = p0 :: p1 :: p2 :: p3 :: more →
          tc_cleanup_from_potential_errors tc_text f =
            String.mk (p0 ++ ':' :: p1 ++ ':' :: p2 ++ ':' :: p3))
        ∧ ((findTwoDigitRuns (String.join line).data).length < 4 →
          tc_cleanup_from_potential_errors tc_text f = "WRONG TC"))
    ∧ tc_cleanup_from_potential_errors [[]] 0 = "EMPTY TC"
    ∧ tc_cleanup_from_potential_errors [["01:02:03:20"]] 0 = "01:02:03:20"
    ∧ tc_cleanup_from_potential_errors [["10 04 05:12"]] 0 = "10:04:05:12"
    ∧ tc_cleanup_from_potential_errors [["1"]] 0 = "WRONG TC" := by
  refine ⟨?_, ?_, by decide, by decide, by decide, by decide⟩
  · intro h
    rcases h with h | h
    · subst h; rfl
    · cases tc_text with
      | nil => rfl
      | cons line rest =>
        simp only [List.head?_cons, Option.some.injEq] at h
        subst h
        rfl
  · intro line rest hline hne
    subst hline
    constructor
    · intro p0 p1 p2 p3 more hruns
      simp only [tc_cleanup_from_potential_errors, if_neg hne]
      rw [hruns]
    · intro hlen
      simp only [tc_cleanup_from_potential_errors, if_neg hne]
      rcases e : findTwoDigitRuns (String.join line).data with
        _ | ⟨a, _ | ⟨b, _ | ⟨c, _ | ⟨d, t⟩⟩⟩⟩ <;>
        first
          | rfl
          | (rw [e] at hlen; simp only [List.length_cons] at hlen; omega)

/-- Claim C4 witness: the empty-first-line case at the concrete input
`[[]]`, frame 0. -/
theorem tc_cleanup_behaviour_witness :
    tc_cleanup_from_potential_errors [[]] 0 = "EMPTY TC" :=
  (tc_cleanup_behaviour [[]] 0).1 (Or.inr rfl)

/-! ## Claim C9 -/

/-- Claim C9: calling `check_previous_or_next_frames` in mode "next"
with a frame whose first occurrence is the last position of
`frames_to_check` makes the forward slice empty, so the walk loop never
binds `curr_frame` and the final `frames_to_check.index(curr_frame)`
raises `UnboundLocalError` instead of returning the results. -/
theorem check_next_frames_unbound_local_on_last
    (ocrText ocrTc : Nat → Option (List String)) (frames_to_check : List Nat)
    (frame : Nat) (found_adr_text : EventDict)
    (h : pyIndex frames_to_check frame = some (frames_to_check.length - 1)) :
    check_previous_or_next_frames ocrText ocrTc frames_to_check frame
      found_adr_text "next" =
    Except.error "UnboundLocalError: curr_frame" := by
  have hne : frames_to_check ≠ [] := by
    intro hnil
    rw [hnil] at h
    simp [pyIndex] at h
  have hdrop : frames_to_check.drop (frames_to_check.length - 1 + 1) = [] := by
    apply List.drop_eq_nil_of_le
    omega
  simp [check_previous_or_next_frames, h, slicedFrames, hdrop, adrWalk,
        Bind.bind, Except.bind]

/-- Claim C9 witness: the single flagged frame 5 is its own last
element. -/
theorem check_next_frames_unbound_local_on_last_witness :
    pyIndex [5] 5 = some ([5].length - 1)
    ∧ check_previous_or_next_frames (fun _ => some ["ADR: x"])
        (fun _ => some ["00:00:00:01"]) [5] 5 [] "next" =
      Except.error "UnboundLocalError: curr_frame" :=
  ⟨by decide,
   check_next_frames_unbound_local_on_last (fun _ => some ["ADR: x"])
     (fun _ => some ["00:00:00:01"]) [5] 5 [] (by decide)⟩

/-! ## Claim C10 -/

/-- Claim C10: in mode "previous" with the frame at index 0, the Python
slice `frames_to_check[-1::-1]` is the whole list reversed, so the
backward walk starts from the last flagged frame of the whole list
rather than walking no preceding frames. -/
theorem check_previous_frames_walks_reversed_list_at_index_zero
    (ocrText ocrTc : Nat → Option (List String)) (frames_to_check : List Nat)
    (frame : Nat) (found_adr_text : EventDict)
    (h : pyIndex frames_to_check frame = some 0) :
    slicedFrames frames_to_check 0 "previous" = some frames_to_check.reverse
    ∧ check_previous_or_next_frames ocrText ocrTc frames_to_check frame
        found_adr_text "previous" =
      (adrWalk ocrText ocrTc frames_to_check.reverse false none
          found_adr_text none).map (fun r => AdrReturn.single r.1)
    ∧ frames_to_check.reverse.head? = frames_to_check.getLast? := by
  refine ⟨by simp [slicedFrames], ?_, List.head?_reverse _⟩
  unfold check_previous_or_next_frames
  rw [h]
  cases e : adrWalk ocrText ocrTc frames_to_check.reverse false none
      found_adr_text none with
  | error err => simp [Bind.bind, Except.bind, slicedFrames, e, Except.map]
  | ok r => simp [Bind.bind, Except.bind, slicedFrames, e, Except.map]

/-- Claim C10 witness: frame 3 sits at index 0 of `[3, 4, 9]`; the slice
is `[9, 4, 3]` and the walk starts at 9, the last flagged frame. -/
theorem check_previous_frames_walks_reversed_list_at_index_zero_witness :
    pyIndex [3, 4, 9] 3 = some 0
    ∧ (slicedFrames [3, 4, 9] 0 "previous" = some [9, 4, 3]
       ∧ check_previous_or_next_frames (fun _ => some ["ADR: x"])
           (fun _ => some ["00:00:00:01"]) [3, 4, 9] 3 [] "previous" =
         (adrWalk (fun _ => some ["ADR: x"]) (fun _ => some ["00:00:00:01"])
             [9, 4, 3] false none [] none).map
           (fun r => AdrReturn.single r.1)
       ∧ ([3, 4, 9] : List Nat).reverse.head? = ([3, 4, 9] : List Nat).getLast?) :=
  ⟨by decide,
   check_previous_frames_walks_reversed_list_at_index_zero
     (fun _ => some ["ADR: x"]) (fun _ => some ["00:00:00:01"])
     [3, 4, 9] 3 [] (by decide)⟩

/-! ## Claim C8 -/

/-- Inversion for a successful `Except` bind. -/
theorem except_bind_ok {α β : Type} {x : Except String α}
    {f : α → Except String β} {y : β} (h : (x >>= f) = Except.ok y) :
    ∃ v, x = Except.ok v ∧ f v = Except.ok y := by
  cases x with
  | error e => simp [Bind.bind, Except.bind] at h
  | ok v => exact ⟨v, rfl, by simpa [Bind.bind, Except.bind] using h⟩

/-- A successful per-run border event always carries
`FRAME OUT = b + 1`. -/
theorem borderEventFor_ok_shape {videoFps : Rat} {text_dict : EventDict}
    {a b : Nat} {res : Record}
    (h : borderEventFor videoFps text_dict a b = Except.ok res) :
    ∃ t tcin tcout, res =
      [("TEXT", Val.s t), ("TC IN", Val.s tcin), ("TC OUT", Val.s tcout),
       ("FRAME OUT", Val.n (b + 1))] := by
  unfold borderEventFor at h
  obtain ⟨rb, h1, h⟩ := except_bind_ok h
  obtain ⟨tcB, h2, h⟩ := except_bind_ok h
  obtain ⟨texts, h3, h⟩ := except_bind_ok h
  obtain ⟨mpt, h4, h⟩ := except_bind_ok h
  obtain ⟨ra, h5, h⟩ := except_bind_ok h
  obtain ⟨tcA, h6, h⟩ := except_bind_ok h
  simp only [Except.ok.injEq] at h
  exact ⟨mpt, tcA, (read_tc_add_one_frame videoFps tcB).getD tcB, h.symm⟩

/-- A successful `buildBorderEvents` output: one entry per run, keyed by
the run's first frame, with payload from `borderEventFor`. -/
theorem buildBorderEvents_mem {videoFps : Rat} {text_dict : EventDict} :
    ∀ {rs : List (Nat × Nat)} {out : EventDict},
    buildBorderEvents videoFps text_dict rs = Except.ok out →
    ∀ p ∈ out, ∃ r ∈ rs, p.1 = r.1 ∧
      borderEventFor videoFps text_dict r.1 r.2 = Except.ok p.2 := by
  intro rs
  induction rs with
  | nil =>
    intro out h p hp
    simp only [buildBorderEvents, Except.ok.injEq] at h
    subst h
    simp at hp
  | cons r rest ih =>
    intro out h p hp
    obtain ⟨x, y⟩ := r
    unfold buildBorderEvents at h
    obtain ⟨ev, h1, h⟩ := except_bind_ok h
    obtain ⟨tail, h2, h⟩ := except_bind_ok h
    simp only [Except.ok.injEq] at h
    subst h
    rcases List.mem_cons.mp hp with hp | hp
    · subst hp
      exact ⟨(x, y), List.mem_cons_self _ _, rfl, h1⟩
    · obtain ⟨r', hr', hk, hb⟩ := ih h2 p hp
      exact ⟨r', List.mem_cons_of_mem _ hr', hk, hb⟩

/-- Every pair emitted by the run-splitting loop satisfies
`first ≤ last`, for any input key list. -/
theorem runsAux_fst_le_snd :
    ∀ (keys series : List Nat)
      (hs : ∀ (a : Nat) (t : List Nat) (he : series = a :: t),
        a ≤ (a :: t).getLast (List.cons_ne_nil a t)),
      ∀ p ∈ runsAux series keys, p.1 ≤ p.2 := by
  intro keys
  induction keys with
  | nil =>
    intro series hs p hp
    cases series with
    | nil => simp [runsAux] at hp
    | cons a t =>
      simp only [runsAux, List.mem_singleton] at hp
      subst hp
      exact hs a t rfl
  | cons i rest ih =>
    intro series hs p hp
    cases series with
    | nil =>
      refine ih [i] ?_ p hp
      intro a t he
      cases he
      simp
    | cons h t =>
      simp only [runsAux] at hp
      by_cases hc :
          ((h :: t).getLast (List.cons_ne_nil h t) : Int) = (i : Int) - 1
      · rw [if_pos hc] at hp
        refine ih (h :: t ++ [i]) ?_ p hp
        intro a t' he
        have ha : a = h := by
          have := congrArg (fun l => List.head? l) he
          simpa using this.symm
        subst ha
        have he' : t' = t ++ [i] := by
          simpa using he.symm
        subst he'
        have hx : ((a :: t) ++ [i]).getLast
            (List.append_ne_nil_of_right_ne_nil _ (List.cons_ne_nil i [])) = i :=
          List.getLast_append_singleton (a :: t)
        have h1 : a ≤ (a :: t).getLast (List.cons_ne_nil a t) := hs a t rfl
        exact le_of_le_of_eq (show a ≤ i by omega) hx.symm
      · rw [if_neg hc] at hp
        rcases List.mem_cons.mp hp with hp | hp
        · subst hp
          exact hs h t rfl
        · refine ih [i] ?_ p hp
          intro a t' he
          cases he
          simp

theorem lookup_frame_out (t tcin tcout : String) (fo : Int) :
    List.lookup "FRAME OUT"
      [("TEXT", Val.s t), ("TC IN", Val.s tcin), ("TC OUT", Val.s tcout),
       ("FRAME OUT", Val.n fo)] = some (Val.n fo) := rfl

/-- One VFX range step keeps the invariant, provided the range is
properly ordered. -/
theorem vfxRangeStep_preserves {sampler : Nat × Nat → List Nat}
    {ocrText tcOcrVfx : Nat → Option (List String)} {videoFps : Rat}
    {st st' : VfxScanState} {r : Nat × Nat} (hr : r.1 < r.2)
    (hstep : vfxRangeStep sampler ocrText tcOcrVfx videoFps st r =
      Except.ok st')
    (hP : FrameOutGtKey st.found_vfx_text) :
    FrameOutGtKey st'.found_vfx_text := by
  unfold vfxRangeStep at hstep
  dsimp only at hstep
  split at hstep
  · cases hstep
    exact hP
  · obtain ⟨mpt, h1, hstep⟩ := except_bind_ok hstep
    obtain ⟨lastPair, h2, hstep⟩ := except_bind_ok hstep
    split at hstep
    · cases hstep
      exact hP
    · split at hstep
      · cases hstep
      · rename_i tcin heq
        cases hstep
        intro p hp
        rcases List.mem_append.mp hp with hp | hp
        · exact hP p hp
        · have hp' : p = (r.1,
              [("TEXT", Val.s mpt), ("TC IN", Val.s tcin),
               ("TC OUT", Val.s lastPair.2), ("FRAME OUT", Val.n r.2)]) := by
            simpa using hp
          subst hp'
          exact ⟨(r.2 : Int), lookup_frame_out _ _ _ _, by exact_mod_cast hr⟩

/-- Folding the VFX range step over well-ordered ranges keeps the
invariant. -/
theorem vfx_foldlM_preserves {sampler : Nat × Nat → List Nat}
    {ocrText tcOcrVfx : Nat → Option (List String)} {videoFps : Rat} :
    ∀ {ranges : List (Nat × Nat)} {st st' : VfxScanState},
    (∀ r ∈ ranges, r.1 < r.2) → FrameOutGtKey st.found_vfx_text →
    List.foldlM (vfxRangeStep sampler ocrText tcOcrVfx videoFps) st ranges =
      Except.ok st' →
    FrameOutGtKey st'.found_vfx_text := by
  intro ranges
  induction ranges with
  | nil =>
    intro st st' _ hP h
    cases h
    exact hP
  | cons r rest ih =>
    intro st st' hranges hP h
    rw [List.foldlM_cons] at h
    obtain ⟨st1, hstep, h⟩ := except_bind_ok h
    exact ih (fun q hq => hranges q (List.mem_cons_of_mem _ hq))
      (vfxRangeStep_preserves (hranges r (List.mem_cons_self _ _)) hstep hP) h

/-- Claim C8: every event emitted by the VFX extractor (given ranges
`[a, b)` with `b > a`) and every event emitted by the ADR border
reduction stores a `FRAME OUT` strictly greater than its frame-number
key. -/
theorem extractor_events_frame_out_gt_key :
    (∀ (sampler : Nat × Nat → List Nat)
       (ocrText tcOcrVfx : Nat → Option (List String)) (videoFps : Rat)
       (ranges : List (Nat × Nat)) (frames : List Nat) (d : EventDict),
       (∀ r ∈ ranges, r.1 < r.2) →
       generate_vfx_text sampler ocrText tcOcrVfx videoFps ranges frames =
         Except.ok d →
       FrameOutGtKey d)
    ∧ (∀ (videoFps : Rat) (text_dict : EventDict) (d : EventDict),
       remove_all_but_border_cases_found videoFps text_dict = Except.ok d →
       FrameOutGtKey d) := by
  constructor
  · intro sampler ocrText tcOcrVfx videoFps ranges frames d hranges h
    unfold generate_vfx_text at h
    cases hfold : List.foldlM (vfxRangeStep sampler ocrText tcOcrVfx videoFps)
        (⟨[], none, none⟩ : VfxScanState) ranges with
    | error e => rw [hfold] at h; cases h
    | ok st' =>
      rw [hfold] at h
      cases h
      exact vfx_foldlM_preserves hranges (by intro p hp; simp at hp) hfold
  · intro videoFps text_dict d h
    unfold remove_all_but_border_cases_found at h
    intro p hp
    obtain ⟨r, hr, hkey, hev⟩ := buildBorderEvents_mem h p hp
    obtain ⟨t, tcin, tcout, hshape⟩ := borderEventFor_ok_shape hev
    have hle : r.1 ≤ r.2 :=
      runsAux_fst_le_snd _ [] (by intro a t' he; cases he) r hr
    refine ⟨((r.2 : Int) + 1), ?_, ?_⟩
    · rw [hshape]
      exact lookup_frame_out _ _ _ _
    · rw [hkey]
      omega

/-- Claim C8 witness: the VFX branch applied to the single range
`[10, 14)` with OCR oracles finding "VFX: boom". -/
theorem extractor_events_frame_out_gt_key_witness :
    FrameOutGtKey
      [(10, [("TEXT", Val.s "VFX: boom"), ("TC IN", Val.s "00:00:00:00"),
             ("TC OUT", Val.s "00:00:00:04"), ("FRAME OUT", Val.n 14)])] :=
  extractor_events_frame_out_gt_key.1 (fun r => [r.1 + 1])
    (fun _ => some ["VFX: boom", "other"])
    (fun n => some [tcString 0 0 0 (n % 10)]) 25 [(10, 14)] []
    [(10, [("TEXT", Val.s "VFX: boom"), ("TC IN", Val.s "00:00:00:00"),
           ("TC OUT", Val.s "00:00:00:04"), ("FRAME OUT", Val.n 14)])]
    (by decide) rfl

theorem lookup_eq_none_iff (l : EventDict) (k : Nat) :
    l.lookup k = none ↔ k ∉ l.map Prod.fst := by
  induction l with
  | nil => simp [List.lookup]
  | cons p rest ih =>
    by_cases hk : k = p.1
    · subst hk
      simp [List.lookup]
    · simp only [List.lookup,
        show (k == p.1) = false from beq_eq_false_iff_ne.mpr hk,
        List.map_cons, List.mem_cons]
      simp [ih, hk]

theorem mergeFromA_of_disjoint {b : EventDict} :
    ∀ {a : EventDict}, (∀ p ∈ a, b.lookup p.1 = none) →
    mergeFromA b a = Except.ok a := by
  intro a
  induction a with
  | nil => intro _; rfl
  | cons p rest ih =>
    intro h
    have hp := h p (List.mem_cons_self _ _)
    simp only [mergeFromA, hp]
    rw [ih (fun q hq => h q (List.mem_cons_of_mem _ hq))]
    rfl

theorem mergeFromA_ok_keys {b : EventDict} :
    ∀ {a l : EventDict}, mergeFromA b a = Except.ok l →
    l.map Prod.fst = a.map Prod.fst := by
  intro a
  induction a with
  | nil =>
    intro l h
    cases h
    rfl
  | cons p rest ih =>
    intro l h
    unfold mergeFromA at h
    cases hl : List.lookup p.1 b with
    | some rb =>
      rw [hl] at h
      obtain ⟨r, h1, h⟩ := except_bind_ok h
      obtain ⟨tail, h2, h⟩ := except_bind_ok h
      cases h
      simp [ih h2]
    | none =>
      rw [hl] at h
      obtain ⟨tail, h2, h⟩ := except_bind_ok h
      cases h
      simp [ih h2]

theorem sortByKey_perm (d : EventDict) : List.Perm (sortByKey d) d :=
  List.perm_insertionSort keyLE d

theorem sortByKey_sorted (d : EventDict) : List.Sorted keyLE (sortByKey d) :=
  List.sorted_insertionSort keyLE d

/-- With pairwise-distinct keys the stable sort is strictly sorted. -/
theorem sortByKey_pairwiseLT {d : EventDict}
    (hd : (d.map Prod.fst).Nodup) :
    List.Sorted keyLT (sortByKey d) := by
  have hperm : List.Perm ((sortByKey d).map Prod.fst) (d.map Prod.fst) :=
    (sortByKey_perm d).map Prod.fst
  have hnodup : ((sortByKey d).map Prod.fst).Nodup := hperm.nodup_iff.mpr hd
  have hne : List.Pairwise (fun p q : Nat × Record => p.1 ≠ q.1)
      (sortByKey d) := List.pairwise_map.mp hnodup
  have hle : List.Pairwise keyLE (sortByKey d) := sortByKey_sorted d
  refine (hle.and hne).imp ?_
  intro p q h
  exact Nat.lt_of_le_of_ne h.1 h.2

/-- And so are the bare keys. -/
theorem sortByKey_strict_keys {d : EventDict}
    (hd : (d.map Prod.fst).Nodup) :
    List.Sorted (· < ·) ((sortByKey d).map Prod.fst) :=
  List.pairwise_map.mpr (sortByKey_pairwiseLT hd)

/-- Claim C5: `merge_dicts` is commutative on dictionaries with disjoint
key sets, and whenever it returns a result its keys are strictly
increasing, regardless of the key order of the inputs. -/
theorem merge_dicts_commutes_and_sorts (a b : EventDict)
    (ha : (a.map Prod.fst).Nodup) (hb : (b.map Prod.fst).Nodup) :
    ((∀ k ∈ a.map Prod.fst, k ∉ b.map Prod.fst) →
      merge_dicts a b = merge_dicts b a)
    ∧ (∀ d, merge_dicts a b = Except.ok d →
      List.Sorted (· < ·) (d.map Prod.fst)) := by
  constructor
  · intro hdis
    have hA : mergeFromA b a = Except.ok a := by
      apply mergeFromA_of_disjoint
      intro p hp
      exact (lookup_eq_none_iff b p.1).mpr
        (hdis p.1 (List.mem_map_of_mem Prod.fst hp))
    have hB : mergeFromA a b = Except.ok b := by
      apply mergeFromA_of_disjoint
      intro p hp
      apply (lookup_eq_none_iff a p.1).mpr
      intro hcon
      exact hdis p.1 hcon (List.mem_map_of_mem Prod.fst hp)
    have hfb : b.filter (fun p => (a.lookup p.1).isNone) = b := by
      apply List.filter_eq_self.mpr
      intro p hp
      have := (lookup_eq_none_iff a p.1).mpr
        (fun hcon => hdis p.1 hcon (List.mem_map_of_mem Prod.fst hp))
      simp [this]
    have hfa : a.filter (fun p => (b.lookup p.1).isNone) = a := by
      apply List.filter_eq_self.mpr
      intro p hp
      have := (lookup_eq_none_iff b p.1).mpr
        (hdis p.1 (List.mem_map_of_mem Prod.fst hp))
      simp [this]
    have hsortEq : sortByKey (a ++ b) = sortByKey (b ++ a) := by
      apply List.eq_of_perm_of_sorted (r := keyLT)
      · exact ((sortByKey_perm _).trans List.perm_append_comm).trans
          (sortByKey_perm _).symm
      · apply sortByKey_pairwiseLT
        rw [List.map_append]
        exact List.Nodup.append ha hb (fun k hka hkb => hdis k hka hkb)
      · apply sortByKey_pairwiseLT
        rw [List.map_append]
        exact List.Nodup.append hb ha (fun k hkb hka => hdis k hka hkb)
    simp only [merge_dicts, hA, hB, hfa, hfb, Bind.bind, Except.bind]
    rw [hsortEq]
  · intro d h
    unfold merge_dicts at h
    obtain ⟨fa, h1, h⟩ := except_bind_ok h
    simp only [Except.ok.injEq] at h
    subst h
    apply sortByKey_strict_keys
    rw [List.map_append, mergeFromA_ok_keys h1]
    apply List.Nodup.append ha
    · exact List.Nodup.sublist
        (List.Sublist.map Prod.fst (List.filter_sublist b)) hb
    · intro k hka hkf
      obtain ⟨p, hp, hpk⟩ := List.mem_map.mp hkf
      have hmem := List.mem_filter.mp hp
      have hnone : a.lookup p.1 = none := by
        have := hmem.2
        simpa [Option.isNone_iff_eq_none] using this
      exact (lookup_eq_none_iff a p.1).mp hnone (hpk ▸ hka)

/-- Claim C5 witness: disjoint singletons commute. -/
theorem merge_dicts_commutes_and_sorts_witness :
    merge_dicts [(7, adrShapedRecord "ADR: a" "00:00:00:01")]
        [(3, adrShapedRecord "ADR: b" "00:00:00:02")] =
      merge_dicts [(3, adrShapedRecord "ADR: b" "00:00:00:02")]
        [(7, adrShapedRecord "ADR: a" "00:00:00:01")] :=
  (merge_dicts_commutes_and_sorts
      [(7, adrShapedRecord "ADR: a" "00:00:00:01")]
      [(3, adrShapedRecord "ADR: b" "00:00:00:02")]
      (by decide) (by decide)).1 (by decide)

theorem filter_swap (p q : Char → Bool) (l : List Char) :
    (l.filter p).filter q = (l.filter q).filter p := by
  rw [List.filter_filter, List.filter_filter]
  congr 1
  funext x
  rw [Bool.and_comm]

theorem dedupF_filter_ne (a : Char) :
    ∀ l : List Char,
    dedupF (l.filter (fun x => x ≠ a)) = (dedupF l).filter (fun x => x ≠ a) := by
  intro l
  induction l with
  | nil => rfl
  | cons c cs ih =>
    rw [List.filter_cons]
    by_cases hca : c = a
    · subst hca
      rw [if_neg (by simp)]
      rw [ih]
      show _ = List.filter _ (dedupF (c :: cs))
      rw [show dedupF (c :: cs) = c :: (dedupF cs).filter (fun x => x ≠ c) from rfl]
      rw [List.filter_cons, if_neg (by simp)]
      rw [List.filter_filter]
      congr 1
      funext x
      rw [Bool.and_self]
    · rw [if_pos (by simp [hca])]
      rw [show dedupF (c :: cs.filter (fun x => x ≠ a))
            = c :: (dedupF (cs.filter (fun x => x ≠ a))).filter (fun x => x ≠ c)
          from rfl]
      rw [show dedupF (c :: cs) = c :: (dedupF cs).filter (fun x => x ≠ c) from rfl]
      rw [List.filter_cons, if_pos (by simp [hca])]
      rw [ih, filter_swap]

theorem counterKeys_go :
    ∀ (cs acc : List Char),
    List.foldl (fun ks c => if c ∈ ks then ks else ks ++ [c]) acc cs
      = acc ++ dedupF (cs.filter (fun c => decide (c ∉ acc))) := by
  intro cs
  induction cs with
  | nil => intro acc; simp [dedupF]
  | cons c cs ih =>
    intro acc
    rw [List.foldl_cons, List.filter_cons]
    by_cases hc : c ∈ acc
    · rw [if_pos hc, if_neg (by simp [hc])]
      exact ih acc
    · rw [if_neg hc, if_pos (by simp [hc])]
      rw [ih (acc ++ [c])]
      rw [show dedupF (c :: cs.filter (fun x => decide (x ∉ acc)))
            = c :: (dedupF (cs.filter (fun x => decide (x ∉ acc)))).filter
                (fun x => x ≠ c) from rfl]
      rw [List.append_assoc, List.singleton_append]
      congr 2
      have hpred : (fun x => decide (x ∉ acc ++ [c]))
          = (fun x => decide (x ≠ c) && decide (x ∉ acc)) := by
        funext x
        by_cases h1 : x ∈ acc <;> by_cases h2 : x = c <;> simp [h1, h2]
      rw [hpred, ← List.filter_filter, dedupF_filter_ne]

theorem counterKeys_eq_dedupF (cs : List Char) :
    counterKeys cs = dedupF cs := by
  unfold counterKeys
  rw [counterKeys_go cs []]
  simp

theorem mem_dedupF {x : Char} : ∀ {l : List Char}, x ∈ dedupF l ↔ x ∈ l := by
  intro l
  induction l with
  | nil => simp [dedupF]
  | cons c cs ih =>
    simp only [dedupF, List.mem_cons, List.mem_filter]
    constructor
    · rintro (h | ⟨h, _⟩)
      · exact Or.inl h
      · exact Or.inr (ih.mp h)
    · rintro (h | h)
      · exact Or.inl h
      · by_cases hxc : x = c
        · exact Or.inl hxc
        · exact Or.inr ⟨ih.mpr h, by simpa using hxc⟩

theorem find?_filter_ne {p : Char → Bool} {c : Char} (hc : p c = false) :
    ∀ l : List Char, (l.filter (fun x => x ≠ c)).find? p = l.find? p := by
  intro l
  induction l with
  | nil => rfl
  | cons d l ih =>
    rw [List.filter_cons]
    by_cases hdc : d = c
    · subst hdc
      rw [if_neg (by simp)]
      rw [ih, List.find?_cons, hc]
    · rw [if_pos (by simp [hdc])]
      rw [List.find?_cons, List.find?_cons]
      cases hpd : p d
      · exact ih
      · rfl

theorem find?_dedupF {p : Char → Bool} :
    ∀ l : List Char, (dedupF l).find? p = l.find? p := by
  intro l
  induction l with
  | nil => rfl
  | cons c l ih =>
    rw [show dedupF (c :: l) = c :: (dedupF l).filter (fun x => x ≠ c) from rfl]
    rw [List.find?_cons, List.find?_cons]
    cases hpc : p c
    · rw [find?_filter_ne hpc, ih]
    · rfl

theorem foldl_pickMax_eq_find? (counts : Char → Nat) :
    ∀ (ks : List Char) (k : Char),
      some (ks.foldl (fun best c => if counts best < counts c then c
                                    else best) k)
      = (k :: ks).find?
          (fun x => (k :: ks).all (fun d => decide (counts d ≤ counts x))) := by
  intro ks
  induction ks with
  | nil =>
    intro k
    simp [List.find?_cons]
  | cons c ks ih =>
    intro k
    rw [List.foldl_cons]
    by_cases hc : counts k < counts c
    · rw [if_pos hc, ih c]
      have hpt : (fun x => (k :: c :: ks).all
            (fun d => decide (counts d ≤ counts x)))
          = (fun x => (c :: ks).all (fun d => decide (counts d ≤ counts x))) := by
        funext x
        cases hx : (c :: ks).all (fun d => decide (counts d ≤ counts x)) with
        | false =>
          apply Bool.eq_false_iff.mpr
          intro hT
          have hall : (c :: ks).all (fun d => decide (counts d ≤ counts x))
              = true :=
            List.all_eq_true.mpr (fun d hd =>
              List.all_eq_true.mp hT d (List.mem_cons_of_mem _ hd))
          rw [hall] at hx
          cases hx
        | true =>
          apply List.all_eq_true.mpr
          intro d hd
          rcases List.mem_cons.mp hd with h | h
          · subst h
            have hcx := List.all_eq_true.mp hx c (List.mem_cons_self _ _)
            simp only [decide_eq_true_eq] at hcx ⊢
            omega
          · exact List.all_eq_true.mp hx d h
      rw [hpt]
      have hp'k : ((c :: ks).all (fun d => decide (counts d ≤ counts k)))
          = false := by
        apply Bool.eq_false_iff.mpr
        intro hT
        have h2 := List.all_eq_true.mp hT c (List.mem_cons_self _ _)
        simp only [decide_eq_true_eq] at h2
        omega
      simp only [List.find?_cons, hp'k]
    · rw [if_neg hc, ih k]
      have hpt : (fun x => (k :: c :: ks).all
            (fun d => decide (counts d ≤ counts x)))
          = (fun x => (k :: ks).all (fun d => decide (counts d ≤ counts x))) := by
        funext x
        cases hx : (k :: ks).all (fun d => decide (counts d ≤ counts x)) with
        | false =>
          apply Bool.eq_false_iff.mpr
          intro hT
          have hall : (k :: ks).all (fun d => decide (counts d ≤ counts x))
              = true := by
            apply List.all_eq_true.mpr
            intro d hd
            rcases List.mem_cons.mp hd with h | h
            · exact List.all_eq_true.mp hT d (h ▸ List.mem_cons_self _ _)
            · exact List.all_eq_true.mp hT d
                (List.mem_cons_of_mem _ (List.mem_cons_of_mem _ h))
          rw [hall] at hx
          cases hx
        | true =>
          apply List.all_eq_true.mpr
          intro d hd
          rcases List.mem_cons.mp hd with h | h
          · exact List.all_eq_true.mp hx d (h ▸ List.mem_cons_self _ _)
          · rcases List.mem_cons.mp h with h' | h'
            · subst h'
              have hkx := List.all_eq_true.mp hx k (List.mem_cons_self _ _)
              simp only [decide_eq_true_eq] at hkx ⊢
              omega
            · exact List.all_eq_true.mp hx d (List.mem_cons_of_mem _ h')
      rw [hpt]
      cases hk : ((k :: ks).all (fun d => decide (counts d ≤ counts k))) with
      | true => simp only [List.find?_cons, hk]
      | false =>
        have hpc : ((k :: ks).all (fun d => decide (counts d ≤ counts c)))
            = false := by
          apply Bool.eq_false_iff.mpr
          intro hT
          have hkc := List.all_eq_true.mp hT k (List.mem_cons_self _ _)
          simp only [decide_eq_true_eq] at hkc
          have hck : counts c = counts k := by omega
          have : ((k :: ks).all (fun d => decide (counts d ≤ counts k)))
              = true := by
            apply List.all_eq_true.mpr
            intro d hd
            have := List.all_eq_true.mp hT d hd
            simp only [decide_eq_true_eq] at this ⊢
            omega
          rw [this] at hk
          cases hk
        simp only [List.find?_cons, hk, hpc]

theorem mostCommonChar_eq_specBestChar (col : List Char) :
    mostCommonChar col = specBestChar col := by
  unfold mostCommonChar
  cases hck : counterKeys col with
  | nil =>
    have hcol : col = [] := by
      cases col with
      | nil => rfl
      | cons c cs =>
        exfalso
        have hmem : c ∈ counterKeys (c :: cs) := by
          rw [counterKeys_eq_dedupF]
          exact mem_dedupF.mpr (List.mem_cons_self _ _)
        rw [hck] at hmem
        simp at hmem
    subst hcol
    rfl
  | cons k ks =>
    have h1 : some (ks.foldl (fun best c => if col.count best < col.count c
          then c else best) k)
        = (k :: ks).find? (fun x => (k :: ks).all
            (fun d => decide (col.count d ≤ col.count x))) :=
      foldl_pickMax_eq_find? (fun y => col.count y) ks k
    dsimp only
    rw [h1]
    have hmemk : ∀ x : Char, x ∈ (k :: ks) ↔ x ∈ col := by
      intro x
      rw [← hck, counterKeys_eq_dedupF]
      exact mem_dedupF
    have hpt : (fun x => (k :: ks).all
          (fun d => decide (col.count d ≤ col.count x)))
        = (fun x => col.all (fun d => decide (col.count d ≤ col.count x))) := by
      funext x
      cases hx : col.all (fun d => decide (col.count d ≤ col.count x)) with
      | false =>
        apply Bool.eq_false_iff.mpr
        intro hT
        have hall : col.all (fun d => decide (col.count d ≤ col.count x))
            = true :=
          List.all_eq_true.mpr (fun d hd =>
            List.all_eq_true.mp hT d ((hmemk d).mpr hd))
        rw [hall] at hx
        cases hx
      | true =>
        exact List.all_eq_true.mpr (fun d hd =>
          List.all_eq_true.mp hx d ((hmemk d).mp hd))
    rw [hpt]
    rw [show (k :: ks) = counterKeys col from hck.symm, counterKeys_eq_dedupF]
    rw [find?_dedupF]
    rfl

theorem mostCommonChar_isSome {col : List Char} (h : col ≠ []) :
    (mostCommonChar col).isSome := by
  unfold mostCommonChar
  cases hck : counterKeys col with
  | nil =>
    exfalso
    cases col with
    | nil => exact h rfl
    | cons c cs =>
      have hmem : c ∈ counterKeys (c :: cs) := by
        rw [counterKeys_eq_dedupF]
        exact mem_dedupF.mpr (List.mem_cons_self _ _)
      rw [hck] at hmem
      simp at hmem
  | cons k ks => simp

theorem mapM_option_eq_some {α : Type} {f : Nat → Option α} :
    ∀ L : List Nat, (∀ x ∈ L, (f x).isSome) →
    ∃ out : List α, L.mapM f = some out ∧ out.length = L.length ∧
      ∀ i (hi : i < L.length), f (L.get ⟨i, hi⟩) = out.get? i := by
  intro L
  induction L with
  | nil =>
    exact fun _ => ⟨[], rfl, rfl, fun i hi => absurd hi (by simp)⟩
  | cons x L ih =>
    intro h
    obtain ⟨y, hy⟩ := Option.isSome_iff_exists.mp (h x (List.mem_cons_self _ _))
    obtain ⟨out, hout, hlen, hidx⟩ :=
      ih (fun z hz => h z (List.mem_cons_of_mem _ hz))
    refine ⟨y :: out, ?_, by simp [hlen], ?_⟩
    · rw [List.mapM_cons, hy, hout]
      rfl
    · intro i hi
      cases i with
      | zero => simpa using hy
      | succ j =>
        have hj : j < L.length := by simpa using hi
        simpa using hidx j hj

/-- Claim C7: for every non-empty string list, the consensus builder
returns the right-trimmed concatenation of per-column winners, where the
winner of a column is its first character of maximal count (Python's
`Counter`/`max` tie-break: the earliest-seen among most frequent
characters) — and the spec's concrete instance holds. -/
theorem consensus_is_columnwise_first_seen_plurality
    (text_values : List String) (hl : text_values ≠ []) :
    (∃ chars : List Char,
      construct_most_common_word text_values
          = some (String.mk (rstrip chars))
      ∧ chars.length = maxLenOf text_values
      ∧ ∀ i (hi : i < chars.length),
          chars.get? i = specBestChar (columnOf (paddedOf text_values) i))
    ∧ construct_most_common_word
        ["ADR: Example", "ADR: Example", "ADR: Examp!?", "ADR: Examole"]
      = some "ADR: Example" := by
  refine ⟨?_, by decide⟩
  have hcols : ∀ x ∈ List.range (maxLenOf text_values),
      (mostCommonChar (columnOf (paddedOf text_values) x)).isSome := by
    intro x _
    apply mostCommonChar_isSome
    unfold columnOf paddedOf
    cases text_values with
    | nil => exact absurd rfl hl
    | cons s ls => simp
  obtain ⟨out, hout, hlen, hidx⟩ :=
    mapM_option_eq_some (List.range (maxLenOf text_values)) hcols
  have hlen' : out.length = maxLenOf text_values := by simpa using hlen
  refine ⟨out, ?_, hlen', ?_⟩
  · unfold construct_most_common_word
    rw [if_neg hl, hout]
    rfl
  · intro i hi
    have hi' : i < (List.range (maxLenOf text_values)).length := by
      simpa [hlen'] using hi
    have h2 := hidx i hi'
    rw [List.get_range] at h2
    rw [← h2, mostCommonChar_eq_specBestChar]

/-- Claim C7 witness: the spec's concrete instance. -/
theorem consensus_is_columnwise_first_seen_plurality_witness :
    (∃ chars : List Char,
      construct_most_common_word
          ["ADR: Example", "ADR: Example", "ADR: Examp!?", "ADR: Examole"]
          = some (String.mk (rstrip chars))
      ∧ chars.length = maxLenOf
          ["ADR: Example", "ADR: Example", "ADR: Examp!?", "ADR: Examole"]
      ∧ ∀ i (hi : i < chars.length),
          chars.get? i = specBestChar (columnOf (paddedOf
            ["ADR: Example", "ADR: Example", "ADR: Examp!?", "ADR: Examole"]) i))
    ∧ construct_most_common_word
        ["ADR: Example", "ADR: Example", "ADR: Examp!?", "ADR: Examole"]
      = some "ADR: Example" :=
  consensus_is_columnwise_first_seen_plurality
    ["ADR: Example", "ADR: Example", "ADR: Examp!?", "ADR: Examole"]
    (by decide)

theorem range'_one_concat (s n : Nat) :
    List.range' s (n+1) = List.range' s n ++ [s + n] := by
  have h : List.range' s (n+1) 1 = List.range' s n 1 ++ [s + 1 * n] :=
    List.range'_concat s n
  simpa using h

theorem range'_one_succ (s n : Nat) :
    List.range' s (n+1) = s :: List.range' (s+1) n := by
  have h : List.range' s (n+1) 1 = s :: List.range' (s+1) n 1 :=
    List.range'_succ s n 1
  simpa using h

theorem closedRange_self (a : Nat) : closedRange a a = [a] := by
  unfold closedRange
  rw [show a + 1 - a = 1 by omega]
  rfl

theorem closedRange_cons {a l : Nat} (h : a ≤ l) :
    closedRange a l = a :: List.range' (a+1) (l - a) := by
  unfold closedRange
  rw [show l + 1 - a = (l - a) + 1 by omega]
  exact range'_one_succ a (l - a)

theorem closedRange_concat {a l : Nat} (h : a ≤ l) :
    closedRange a l ++ [l + 1] = closedRange a (l + 1) := by
  unfold closedRange
  rw [show l + 1 + 1 - a = (l + 1 - a) + 1 by omega]
  rw [range'_one_concat a (l + 1 - a)]
  congr 2
  omega

theorem closedRange_getLast {a l : Nat} (h : a ≤ l)
    (hne : closedRange a l ≠ []) : (closedRange a l).getLast hne = l := by
  rcases Nat.eq_or_lt_of_le h with he | hlt
  · subst he
    rw [List.getLast_congr _ (by simp) (closedRange_self a)]
    rfl
  · have h2 : closedRange a l = closedRange a ((l - 1) + 1) := by
      congr 1
      omega
    have h3 : closedRange a (l - 1) ++ [(l - 1) + 1] = closedRange a ((l-1)+1) :=
      closedRange_concat (by omega)
    rw [List.getLast_congr _ (by simp) (h2.trans h3.symm)]
    rw [List.getLast_append_singleton]
    omega

theorem closedRange_mem_left {a l : Nat} (h : a ≤ l) : a ∈ closedRange a l := by
  unfold closedRange
  rw [List.mem_range'_1]
  omega

theorem closedRange_mem_right {a l : Nat} (h : a ≤ l) : l ∈ closedRange a l := by
  unfold closedRange
  rw [List.mem_range'_1]
  omega

theorem closedRange_cons_getLast {a l : Nat} (ha : a ≤ l) :
    (a :: List.range' (a+1) (l-a)).getLast (List.cons_ne_nil _ _) = l := by
  have hcr := closedRange_cons ha
  have hne : closedRange a l ≠ [] := by rw [hcr]; simp
  rw [List.getLast_congr _ hne hcr.symm]
  exact closedRange_getLast ha hne

/-- The run-splitting loop started on the series `[a..l]`: it emits a
first run starting at `a`, the runs flatten back to the input keys, the
runs are separated by genuine gaps, and each run is ordered. -/
theorem runsAux_go :
    ∀ (rest : List Nat) (a l : Nat), a ≤ l →
    List.Chain' (· < ·) (l :: rest) →
    ∃ (b : Nat) (tail : List (Nat × Nat)),
      runsAux (closedRange a l) rest = (a, b) :: tail
      ∧ (((a, b) :: tail).flatMap (fun r => closedRange r.1 r.2)
          = closedRange a l ++ rest)
      ∧ List.Chain' (fun r s => r.2 + 1 < s.1) ((a, b) :: tail)
      ∧ ∀ r ∈ (a, b) :: tail, r.1 ≤ r.2 := by
  intro rest
  induction rest with
  | nil =>
    intro a l ha _
    refine ⟨l, [], ?_, by simp, by simp, by simp [ha]⟩
    rw [closedRange_cons ha]
    simp only [runsAux]
    rw [closedRange_cons_getLast ha]
  | cons k ks ih =>
    intro a l ha hchain
    have hlk : l < k := (List.chain'_cons.mp hchain).1
    have hchain' : List.Chain' (· < ·) (k :: ks) :=
      (List.chain'_cons.mp hchain).2
    rw [closedRange_cons ha]
    simp only [runsAux]
    rw [closedRange_cons_getLast ha]
    by_cases hcond : (l : Int) = (k : Int) - 1
    · rw [if_pos hcond]
      have hk : k = l + 1 := by omega
      subst hk
      have happ : a :: List.range' (a+1) (l-a) ++ [l + 1]
          = closedRange a (l + 1) := by
        rw [← closedRange_cons ha]
        exact closedRange_concat ha
      rw [happ]
      obtain ⟨b, tail, heq, hflat, hch, hle⟩ := ih a (l+1) (by omega) hchain'
      refine ⟨b, tail, heq, ?_, hch, hle⟩
      rw [hflat, ← happ]
      simp [List.append_assoc]
    · rw [if_neg hcond]
      obtain ⟨b', tail', heq', hflat', hch', hle'⟩ :=
        ih k k (Nat.le_refl k) hchain'
      rw [show closedRange k k = [k] from closedRange_self k] at heq'
      rw [heq']
      refine ⟨l, (k, b') :: tail', rfl, ?_, ?_, ?_⟩
      · simp only [List.flatMap_cons] at hflat' ⊢
        rw [hflat', closedRange_self, ← closedRange_cons ha]
        simp
      · rw [List.chain'_cons]
        exact ⟨by omega, hch'⟩
      · intro r hr
        rcases List.mem_cons.mp hr with hr | hr
        · subst hr
          exact ha
        · exact hle' r hr

/-- The characterization of `first_and_last_key` on a strictly
increasing key list: the emitted runs are exactly the maximal runs of
consecutive keys. -/
theorem firstAndLastKeys_spec (keys : List Nat)
    (h : List.Chain' (· < ·) keys) :
    (firstAndLastKeys keys).flatMap (fun r => closedRange r.1 r.2) = keys
    ∧ List.Chain' (fun r s => r.2 + 1 < s.1) (firstAndLastKeys keys)
    ∧ ∀ r ∈ firstAndLastKeys keys, r.1 ≤ r.2 := by
  cases keys with
  | nil => exact ⟨rfl, List.chain'_nil, by simp [firstAndLastKeys, runsAux]⟩
  | cons k ks =>
    have h1 : firstAndLastKeys (k :: ks) = runsAux (closedRange k k) ks := by
      rw [closedRange_self]
      rfl
    obtain ⟨b, tail, heq, hflat, hch, hle⟩ :=
      runsAux_go ks k k (Nat.le_refl k) h
    rw [h1, heq]
    refine ⟨?_, hch, hle⟩
    rw [hflat, closedRange_self]
    rfl

theorem lookup_of_mem_of_nodup :
    ∀ {d : EventDict} {k : Nat} {r : Record},
    (k, r) ∈ d → (d.map Prod.fst).Nodup → d.lookup k = some r := by
  intro d
  induction d with
  | nil => intro k r hmem _; cases hmem
  | cons p rest ih =>
    intro k r hmem hnodup
    rw [List.map_cons] at hnodup
    have hnd := List.nodup_cons.mp hnodup
    rcases List.mem_cons.mp hmem with h | h
    · rw [← h]
      simp [List.lookup]
    · have hkmem : k ∈ rest.map Prod.fst := List.mem_map_of_mem Prod.fst h
      have hk : (k == p.1) = false := by
        apply beq_eq_false_iff_ne.mpr
        intro he
        exact hnd.1 (he ▸ hkmem)
      simp only [List.lookup, hk]
      exact ih h hnd.2

theorem chain'_lt_nodup {l : List Nat} (h : List.Chain' (· < ·) l) :
    l.Nodup :=
  (List.chain'_iff_pairwise.mp h).imp (fun hlt => Nat.ne_of_lt hlt)

theorem mapM_except_ok {α β : Type} {f : α → Except String β} :
    ∀ l : List α, (∀ x ∈ l, ∃ y, f x = Except.ok y) →
    ∃ out, l.mapM f = Except.ok out ∧ out.length = l.length := by
  intro l
  induction l with
  | nil => exact fun _ => ⟨[], rfl, rfl⟩
  | cons x l ih =>
    intro h
    obtain ⟨y, hy⟩ := h x (List.mem_cons_self _ _)
    obtain ⟨out, hout, hlen⟩ := ih (fun z hz => h z (List.mem_cons_of_mem _ hz))
    refine ⟨y :: out, ?_, by simp [hlen]⟩
    rw [List.mapM_cons, hy, hout]
    rfl

theorem construct_most_common_word_isSome {l : List String} (h : l ≠ []) :
    (construct_most_common_word l).isSome := by
  unfold construct_most_common_word
  rw [if_neg h]
  have hcols : ∀ x ∈ List.range (maxLenOf l),
      (mostCommonChar (columnOf (paddedOf l) x)).isSome := by
    intro x _
    apply mostCommonChar_isSome
    unfold columnOf paddedOf
    cases l with
    | nil => exact absurd rfl h
    | cons s ls => simp
  obtain ⟨out, hout, _, _⟩ :=
    mapM_option_eq_some (List.range (maxLenOf l)) hcols
  rw [hout]
  rfl

theorem wellFormedAdrEntry_shape {videoFps : Rat} {r : Record}
    (h : WellFormedAdrEntry videoFps r = true) :
    ∃ text tc, r = adrShapedRecord text tc
      ∧ (read_tc_add_one_frame videoFps tc).isSome := by
  unfold WellFormedAdrEntry at h
  split at h
  · rename_i text tc
    exact ⟨text, tc, rfl, h⟩
  · cases h

theorem collectTexts_ok {videoFps : Rat} {d : EventDict} (a b : Nat)
    (hw : ∀ p ∈ d, WellFormedAdrEntry videoFps p.2 = true) :
    ∃ texts, collectTexts d a b = Except.ok texts
      ∧ texts.length
          = (d.filter (fun p => a ≤ p.1 ∧ p.1 ≤ b)).length := by
  unfold collectTexts
  apply mapM_except_ok
  intro p hp
  obtain ⟨text, tc, hshape, _⟩ :=
    wellFormedAdrEntry_shape (hw p (List.mem_filter.mp hp).1)
  exact ⟨text, by rw [hshape]; rfl⟩

theorem borderEventFor_eval {videoFps : Rat} {d : EventDict} {a b : Nat}
    {ta tca tb tcb tcb1 : String} {texts : List String} {cons : String}
    (hb : d.lookup b = some (adrShapedRecord tb tcb))
    (htc : read_tc_add_one_frame videoFps tcb = some tcb1)
    (hcol : collectTexts d a b = Except.ok texts)
    (hcons : construct_most_common_word texts = some cons)
    (ha : d.lookup a = some (adrShapedRecord ta tca)) :
    borderEventFor videoFps d a b = Except.ok
      [("TEXT", Val.s cons), ("TC IN", Val.s tca),
       ("TC OUT", Val.s tcb1), ("FRAME OUT", Val.n (b + 1))] := by
  unfold borderEventFor
  simp [Bind.bind, Except.bind, getFrame, hb, ha, hcol, hcons, htc,
        okOrEmptyErr, getStrField, adrShapedRecord, List.lookup]

theorem buildBorderEvents_ok_forall₂ {videoFps : Rat} {d : EventDict} :
    ∀ {rs : List (Nat × Nat)},
    (∀ r ∈ rs, BorderRunData videoFps d r) →
    ∃ out, buildBorderEvents videoFps d rs = Except.ok out
      ∧ List.Forall₂ (BorderEventSpec videoFps d) rs out := by
  intro rs
  induction rs with
  | nil => exact fun _ => ⟨[], rfl, List.Forall₂.nil⟩
  | cons r rest ih =>
    intro h
    obtain ⟨ta, tca, tb, tcb, tcb1, texts, cons, h1, h2, h3, h4, h5⟩ :=
      h r (List.mem_cons_self _ _)
    obtain ⟨out, hout, hf⟩ := ih (fun q hq => h q (List.mem_cons_of_mem _ hq))
    obtain ⟨x, y⟩ := r
    refine ⟨(x, [("TEXT", Val.s cons), ("TC IN", Val.s tca),
                 ("TC OUT", Val.s tcb1), ("FRAME OUT", Val.n (y + 1))]) :: out,
            ?_, ?_⟩
    · show buildBorderEvents videoFps d ((x, y) :: rest) = _
      unfold buildBorderEvents
      rw [borderEventFor_eval h2 h3 h4 h5 h1, hout]
      rfl
    · exact List.Forall₂.cons
        ⟨ta, tca, tb, tcb, tcb1, texts, cons, h1, h2, h3, h4, h5, rfl⟩ hf

/-- Claim C3: on an ADR map with strictly increasing keys and
well-formed `{TEXT, TC}` records, the border reduction groups the keys
into maximal runs of consecutive frames (the runs flatten back to the
key list and are separated by real gaps) and emits exactly one event per
run with the claimed fields; in particular the eleven consecutive frames
1500-1510 reduce to one event keyed 1500 with `FRAME OUT` 1511 and
`TC OUT` equal to the last TC plus one frame. -/
theorem adr_border_reduction_groups_runs (videoFps : Rat)
    (text_dict : EventDict)
    (hsorted : List.Chain' (· < ·) (text_dict.map Prod.fst))
    (hw : ∀ p ∈ text_dict, WellFormedAdrEntry videoFps p.2 = true) :
    (∃ d, remove_all_but_border_cases_found videoFps text_dict = Except.ok d
      ∧ (firstAndLastKeys (text_dict.map Prod.fst)).flatMap
          (fun r => closedRange r.1 r.2) = text_dict.map Prod.fst
      ∧ List.Chain' (fun r s => r.2 + 1 < s.1)
          (firstAndLastKeys (text_dict.map Prod.fst))
      ∧ (∀ r ∈ firstAndLastKeys (text_dict.map Prod.fst), r.1 ≤ r.2)
      ∧ List.Forall₂ (BorderEventSpec videoFps text_dict)
          (firstAndLastKeys (text_dict.map Prod.fst)) d)
    ∧ remove_all_but_border_cases_found 25 adrRunExample =
        Except.ok
          [(1500, [("TEXT", Val.s "ADR: Example"),
                   ("TC IN", Val.s "00:01:00:00"),
                   ("TC OUT", Val.s "00:01:00:11"),
                   ("FRAME OUT", Val.n 1511)])] := by
  refine ⟨?_, rfl⟩
  obtain ⟨hflat, hgaps, hord⟩ :=
    firstAndLastKeys_spec (text_dict.map Prod.fst) hsorted
  have hnodup := chain'_lt_nodup hsorted
  have hruns : ∀ r ∈ firstAndLastKeys (text_dict.map Prod.fst),
      BorderRunData videoFps text_dict r := by
    intro r hr
    have hxy : r.1 ≤ r.2 := hord r hr
    have hxmem : r.1 ∈ text_dict.map Prod.fst := by
      rw [← hflat]
      exact List.mem_flatMap.mpr ⟨r, hr, closedRange_mem_left hxy⟩
    have hymem : r.2 ∈ text_dict.map Prod.fst := by
      rw [← hflat]
      exact List.mem_flatMap.mpr ⟨r, hr, closedRange_mem_right hxy⟩
    obtain ⟨⟨a1, rx⟩, hpx, hx'⟩ := List.mem_map.mp hxmem
    simp only at hx'
    subst hx'
    obtain ⟨⟨b1, ry⟩, hpy, hy'⟩ := List.mem_map.mp hymem
    simp only at hy'
    subst hy'
    have hlookx := lookup_of_mem_of_nodup hpx hnodup
    have hlooky := lookup_of_mem_of_nodup hpy hnodup
    obtain ⟨tx, tcx, hshx, _⟩ := wellFormedAdrEntry_shape (hw _ hpx)
    obtain ⟨ty, tcy, hshy, hsy⟩ := wellFormedAdrEntry_shape (hw _ hpy)
    have hshx2 : rx = adrShapedRecord tx tcx := hshx
    have hshy2 : ry = adrShapedRecord ty tcy := hshy
    have hsy2 : (read_tc_add_one_frame videoFps tcy).isSome = true := hsy
    obtain ⟨tcy1, htcy1⟩ := Option.isSome_iff_exists.mp hsy2
    obtain ⟨texts, hcol, hlen⟩ := collectTexts_ok r.1 r.2 hw
    have htexts_ne : texts ≠ [] := by
      intro hnil
      have hmemf : (r.1, rx) ∈ text_dict.filter
          (fun p => r.1 ≤ p.1 ∧ p.1 ≤ r.2) := by
        apply List.mem_filter.mpr
        refine ⟨hpx, ?_⟩
        simp [hxy]
      have hpos := List.length_pos.mpr (List.ne_nil_of_mem hmemf)
      rw [hnil] at hlen
      simp only [List.length_nil] at hlen
      omega
    obtain ⟨cons, hcons⟩ :=
      Option.isSome_iff_exists.mp (construct_most_common_word_isSome htexts_ne)
    exact ⟨tx, tcx, ty, tcy, tcy1, texts, cons,
      by rw [hlookx, hshx2], by rw [hlooky, hshy2], htcy1, hcol, hcons⟩
  obtain ⟨out, hbuild, hf⟩ := buildBorderEvents_ok_forall₂ hruns
  exact ⟨out, hbuild, hflat, hgaps, hord, hf⟩

/-- Claim C3 witness: the theorem applied to the eleven-frame example at
25 fps. -/
theorem adr_border_reduction_groups_runs_witness :
    (∃ d, remove_all_but_border_cases_found 25 adrRunExample = Except.ok d
      ∧ (firstAndLastKeys (adrRunExample.map Prod.fst)).flatMap
          (fun r => closedRange r.1 r.2) = adrRunExample.map Prod.fst
      ∧ List.Chain' (fun r s => r.2 + 1 < s.1)
          (firstAndLastKeys (adrRunExample.map Prod.fst))
      ∧ (∀ r ∈ firstAndLastKeys (adrRunExample.map Prod.fst), r.1 ≤ r.2)
      ∧ List.Forall₂ (BorderEventSpec 25 adrRunExample)
          (firstAndLastKeys (adrRunExample.map Prod.fst)) d)
    ∧ remove_all_but_border_cases_found 25 adrRunExample =
        Except.ok
          [(1500, [("TEXT", Val.s "ADR: Example"),
                   ("TC IN", Val.s "00:01:00:00"),
                   ("TC OUT", Val.s "00:01:00:11"),
                   ("FRAME OUT", Val.n 1511)])] :=
  adr_border_reduction_groups_runs 25 adrRunExample
    (by rw [show adrRunExample.map Prod.fst
          = [1500,1501,1502,1503,1504,1505,1506,1507,1508,1509,1510] from rfl]
        simp [List.chain'_cons])
    (by decide)

/-! ## Claim C2 -/

theorem digitChar_isDigit (d : Nat) :
    48 ≤ (digitChar d).toNat ∧ (digitChar d).toNat ≤ 57 := by
  unfold digitChar
  split <;> decide

theorem digitChar_val {d : Nat} (h : d < 10) :
    (digitChar d).toNat - 48 = d := by
  interval_cases d <;> decide

theorem natDigitsAux_isDigit :
    ∀ (fuel n : Nat), n < fuel →
    ∀ c ∈ natDigitsAux fuel n, 48 ≤ c.toNat ∧ c.toNat ≤ 57 := by
  intro fuel
  induction fuel with
  | zero => intro n h; omega
  | succ fuel ih =>
    intro n hn c hc
    unfold natDigitsAux at hc
    by_cases h10 : n < 10
    · rw [if_pos h10] at hc
      simp only [List.mem_singleton] at hc
      subst hc
      exact digitChar_isDigit n
    · rw [if_neg h10] at hc
      rcases List.mem_append.mp hc with hc | hc
      · have : n / 10 < fuel := by omega
        exact ih (n / 10) this c hc
      · simp only [List.mem_singleton] at hc
        subst hc
        exact digitChar_isDigit (n % 10)

theorem natDigitsAux_ne_nil :
    ∀ (fuel n : Nat), n < fuel → natDigitsAux fuel n ≠ [] := by
  intro fuel
  induction fuel with
  | zero => intro n h; omega
  | succ fuel _ =>
    intro n hn
    unfold natDigitsAux
    by_cases h10 : n < 10
    · rw [if_pos h10]
      simp
    · rw [if_neg h10]
      simp

theorem natDigitsAux_parse :
    ∀ (fuel n acc : Nat), n < fuel →
    List.foldl (fun acc c => acc * 10 + (c.toNat - 48)) acc
        (natDigitsAux fuel n)
      = acc * 10 ^ (natDigitsAux fuel n).length + n := by
  intro fuel
  induction fuel with
  | zero => intro n acc h; omega
  | succ fuel ih =>
    intro n acc hn
    unfold natDigitsAux
    by_cases h10 : n < 10
    · rw [if_pos h10]
      simp [digitChar_val h10]
    · rw [if_neg h10]
      have hlt : n / 10 < fuel := by omega
      rw [List.foldl_append]
      rw [ih (n / 10) acc hlt]
      have hval : (digitChar (n % 10)).toNat - 48 = n % 10 :=
        digitChar_val (by omega)
      rw [List.foldl_cons, List.foldl_nil, hval]
      rw [List.length_append, List.length_singleton]
      rw [pow_succ]
      rw [show acc * ((10:Nat) ^ (natDigitsAux fuel (n / 10)).length * 10)
            = acc * 10 ^ (natDigitsAux fuel (n / 10)).length * 10 from by ring]
      generalize acc * (10:Nat) ^ (natDigitsAux fuel (n / 10)).length = Q
      omega

theorem natToDigits_parse (n : Nat) :
    ∀ acc, List.foldl (fun acc c => acc * 10 + (c.toNat - 48)) acc
        (natToDigits n)
      = acc * 10 ^ (natToDigits n).length + n :=
  fun acc => natDigitsAux_parse (n + 1) n acc (Nat.lt_succ_self n)

theorem fmt2_isDigit {n : Nat} {c : Char} (hc : c ∈ fmt2 n) :
    48 ≤ c.toNat ∧ c.toNat ≤ 57 := by
  unfold fmt2 natToDigits at hc
  by_cases h10 : n < 10
  · rw [if_pos h10] at hc
    rcases List.mem_cons.mp hc with h | h
    · subst h; decide
    · exact natDigitsAux_isDigit (n + 1) n (Nat.lt_succ_self n) c h
  · rw [if_neg h10] at hc
    exact natDigitsAux_isDigit (n + 1) n (Nat.lt_succ_self n) c hc

theorem fmt2_ne_nil (n : Nat) : fmt2 n ≠ [] := by
  unfold fmt2 natToDigits
  by_cases h10 : n < 10
  · rw [if_pos h10]; simp
  · rw [if_neg h10]
    exact natDigitsAux_ne_nil (n + 1) n (Nat.lt_succ_self n)

theorem colon_not_mem_fmt2 (n : Nat) : ':' ∉ fmt2 n := by
  intro h
  have := fmt2_isDigit h
  have hcol : (':' : Char).toNat = 58 := by decide
  omega

theorem parsePiece_fmt2 (n : Nat) : parsePiece (fmt2 n) = some n := by
  unfold parsePiece
  rw [if_pos]
  · congr 1
    unfold fmt2
    by_cases h10 : n < 10
    · rw [if_pos h10]
      rw [List.foldl_cons]
      have h0 : (0 : Nat) * 10 + ('0'.toNat - 48) = 0 := by decide
      rw [h0, natToDigits_parse]
      simp
    · rw [if_neg h10]
      rw [natToDigits_parse]
      simp
  · constructor
    · exact fmt2_ne_nil n
    · rw [List.all_eq_true]
      intro c hc
      have := fmt2_isDigit hc
      simp only [decide_eq_true_eq]
      omega

theorem splitColon_ne_nil : ∀ cs : List Char, splitColon cs ≠ [] := by
  intro cs
  induction cs with
  | nil => simp [splitColon]
  | cons c cs ih =>
    unfold splitColon
    by_cases hc : c = ':'
    · rw [if_pos hc]
      simp
    · rw [if_neg hc]
      cases h : splitColon cs with
      | nil => simp
      | cons r rs => simp

theorem splitColon_no_colon :
    ∀ (xs : List Char), ':' ∉ xs → splitColon xs = [xs] := by
  intro xs
  induction xs with
  | nil => intro _; rfl
  | cons c cs ih =>
    intro h
    have hc : c ≠ ':' := fun he => h (he ▸ List.mem_cons_self _ _)
    have hcs : ':' ∉ cs := fun hm => h (List.mem_cons_of_mem _ hm)
    unfold splitColon
    rw [if_neg hc, ih hcs]

theorem splitColon_cons (c : Char) (cs : List Char) :
    splitColon (c :: cs) = if c = ':' then [] :: splitColon cs
      else match splitColon cs with
        | [] => [[c]]
        | r :: rs => (c :: r) :: rs := rfl

theorem splitColon_append :
    ∀ (xs rest : List Char), ':' ∉ xs →
    splitColon (xs ++ ':' :: rest) = xs :: splitColon rest := by
  intro xs
  induction xs with
  | nil =>
    intro rest _
    rw [List.nil_append, splitColon_cons, if_pos rfl]
  | cons c cs ih =>
    intro rest h
    have hc : c ≠ ':' := fun he => h (he ▸ List.mem_cons_self _ _)
    have hcs : ':' ∉ cs := fun hm => h (List.mem_cons_of_mem _ hm)
    show splitColon (c :: (cs ++ ':' :: rest)) = (c :: cs) :: splitColon rest
    rw [splitColon_cons, if_neg hc, ih rest hcs]

theorem tcString_data (h m s fr : Nat) :
    (tcString h m s fr).data
      = fmt2 h ++ ':' :: (fmt2 m ++ ':' :: (fmt2 s ++ ':' :: fmt2 fr)) := by
  show ((fmt2 h ++ ':' :: fmt2 m) ++ ':' :: fmt2 s) ++ ':' :: fmt2 fr = _
  simp [List.append_assoc]

theorem splitColon_tcString (h m s fr : Nat) :
    splitColon (tcString h m s fr).data
      = [fmt2 h, fmt2 m, fmt2 s, fmt2 fr] := by
  rw [tcString_data]
  rw [splitColon_append _ _ (colon_not_mem_fmt2 h)]
  rw [splitColon_append _ _ (colon_not_mem_fmt2 m)]
  rw [splitColon_append _ _ (colon_not_mem_fmt2 s)]
  rw [splitColon_no_colon _ (colon_not_mem_fmt2 fr)]

theorem mapM_parsePiece_tcString (h m s fr : Nat) :
    (splitColon (tcString h m s fr).data).mapM parsePiece
      = some [h, m, s, fr] := by
  rw [splitColon_tcString]
  simp [List.mapM, List.mapM.loop, parsePiece_fmt2]

theorem tcString_head_digit (h m s fr : Nat) :
    ∃ c t, (tcString h m s fr).data = c :: t ∧ c.toNat ≤ 57 := by
  cases hf : fmt2 h with
  | nil => exact absurd hf (fmt2_ne_nil h)
  | cons c t =>
    refine ⟨c, t ++ ':' :: (fmt2 m ++ ':' :: (fmt2 s ++ ':' :: fmt2 fr)), ?_, ?_⟩
    · rw [tcString_data, hf]
      rfl
    · exact (fmt2_isDigit (hf ▸ List.mem_cons_self c t)).2

theorem tcString_not_sentinel (h m s fr : Nat) :
    ¬(tcString h m s fr = "WRONG TC" ∨ tcString h m s fr = "EMPTY TC") := by
  obtain ⟨c, t, hdata, hdig⟩ := tcString_head_digit h m s fr
  rintro (he | he) <;>
  · have hd := congrArg String.data he
    rw [hdata] at hd
    have hc := List.head_eq_of_cons_eq hd
    subst hc
    revert hdig
    decide

theorem succ_divmod (n f : Nat) (hn : 0 < n) :
    ((f + 1) % n = if f % n + 1 = n then 0 else f % n + 1)
    ∧ ((f + 1) / n = if f % n + 1 = n then f / n + 1 else f / n) := by
  have hdm : n * (f / n) + f % n = f := Nat.div_add_mod f n
  have hlt : f % n < n := Nat.mod_lt f hn
  by_cases hr : f % n + 1 = n
  · rw [if_pos hr, if_pos hr]
    have hf1 : f + 1 = n * (f / n + 1) := by
      rw [Nat.mul_succ]
      set P := n * (f / n) with hP
      omega
    constructor
    · rw [hf1]
      exact Nat.mul_mod_right n _
    · rw [hf1]
      exact Nat.mul_div_cancel_left _ hn
  · rw [if_neg hr, if_neg hr]
    have hf1 : f + 1 = n * (f / n) + (f % n + 1) := by
      set P := n * (f / n) with hP
      omega
    constructor
    · rw [hf1, Nat.mul_add_mod]
      exact Nat.mod_eq_of_lt (by omega)
    · rw [hf1, Nat.mul_add_div hn]
      have hz : (f % n + 1) / n = 0 := Nat.div_eq_of_lt (by omega)
      rw [hz]
      rfl

theorem pyInt_natCast (fps : Nat) : pyInt (fps : Rat) = (fps : Int) := by
  unfold pyInt
  rw [Rat.num_natCast, Rat.den_natCast]
  simp

theorem convert_natCast (fps f : Nat) (h1 : 1 ≤ fps) :
    convert_current_frame_to_tc (fps : Rat) f
      = some (tcString (f / fps / 60 / 60) (f / fps / 60 % 60)
          (f / fps % 60) (f % fps)) := by
  unfold convert_current_frame_to_tc
  rw [pyInt_natCast]
  rw [if_neg (by omega)]
  have e1 : f / (fps * 60 * 60) = f / fps / 60 / 60 := by
    rw [Nat.div_div_eq_div_mul, Nat.div_div_eq_div_mul, Nat.mul_assoc]
  have e2 : f % (fps * 60 * 60) / (fps * 60) = f / fps / 60 % 60 := by
    rw [Nat.mod_mul_right_div_self, Nat.div_div_eq_div_mul]
  have e3 : f % (fps * 60 * 60) % (fps * 60) = f % (fps * 60) :=
    Nat.mod_mod_of_dvd f ⟨60, rfl⟩
  have e4 : f % (fps * 60) / fps = f / fps % 60 :=
    Nat.mod_mul_right_div_self f fps 60
  have e5 : f % (fps * 60) % fps = f % fps :=
    Nat.mod_mod_of_dvd f ⟨60, rfl⟩
  have etoNat : ((fps : Int)).toNat = fps := Int.toNat_natCast fps
  dsimp only
  rw [etoNat, e3, e1, e2, e4, e5]

theorem tc_succ (fps f : Nat) (hfps : 1 ≤ fps) :
    read_tc_add_one_frame (fps : Rat)
        (tcString (f / fps / 60 / 60) (f / fps / 60 % 60)
          (f / fps % 60) (f % fps))
      = some (tcString ((f+1) / fps / 60 / 60) ((f+1) / fps / 60 % 60)
          ((f+1) / fps % 60) ((f+1) % fps)) := by
  unfold read_tc_add_one_frame
  rw [if_neg (tcString_not_sentinel _ _ _ _)]
  rw [mapM_parsePiece_tcString]
  dsimp only
  simp only [Nat.cast_inj]
  obtain ⟨hm1, hd1⟩ := succ_divmod fps f (by omega)
  obtain ⟨hm2, hd2⟩ := succ_divmod 60 (f / fps) (by omega)
  obtain ⟨hm3, hd3⟩ := succ_divmod 60 (f / fps / 60) (by omega)
  have hs0 : f / fps % 60 < 60 := Nat.mod_lt _ (by omega)
  have hmod0 : f / fps / 60 % 60 < 60 := Nat.mod_lt _ (by omega)
  by_cases hA : f % fps + 1 = fps
  · simp only [if_pos hA] at hm1 hd1 ⊢
    by_cases hB : f / fps % 60 + 1 = 60
    · simp only [if_pos hB] at hm2 hd2 ⊢
      by_cases hC : f / fps / 60 % 60 + 1 = 60
      · simp only [if_pos hC] at hm3 hd3 ⊢
        rw [hd1, hd2, hd3, hm1, hm2, hm3]
      · simp only [if_neg hC] at hm3 hd3 ⊢
        rw [hd1, hd2, hd3, hm1, hm2, hm3]
    · simp only [if_neg hB] at hm2 hd2 ⊢
      have hmne : ¬(f / fps / 60 % 60 = 60) := by omega
      simp only [if_neg hmne]
      rw [hd1, hd2, hm1, hm2]
  · simp only [if_neg hA] at hm1 hd1 ⊢
    have hsne : ¬(f / fps % 60 = 60) := by omega
    simp only [if_neg hsne]
    have hmne : ¬(f / fps / 60 % 60 = 60) := by omega
    simp only [if_neg hmne]
    rw [hd1, hm1]

/-- Claim C2, corrected: the frame-increment/timecode-increment identity
holds for every integer fps `>= 1` (together with the spec's literal
rollover instances), but not for every fps `> 0`: the increment routine
compares the frame count against the float fps while the converter uses
`int(fps)`. -/
theorem frame_succ_conversion_commutes_for_integer_fps (fps f : Nat)
    (hfps : 1 ≤ fps) :
    ((convert_current_frame_to_tc (fps : Rat) f).bind
        (read_tc_add_one_frame (fps : Rat))
      = convert_current_frame_to_tc (fps : Rat) (f + 1))
    ∧ convert_current_frame_to_tc 24 23 = some "00:00:00:23"
    ∧ convert_current_frame_to_tc 24 24 = some "00:00:01:00"
    ∧ convert_current_frame_to_tc 25 24 = some "00:00:00:24"
    ∧ convert_current_frame_to_tc 25 25 = some "00:00:01:00" := by
  refine ⟨?_, rfl, rfl, rfl, rfl⟩
  rw [convert_natCast fps f hfps, convert_natCast fps (f + 1) hfps]
  exact tc_succ fps f hfps

/-- Claim C2 counterexample: at the fractional frame rate 23.5 the claimed
identity fails at frame 22 — the converter rolls over at `int(fps) = 23`
while the incrementer compares against the float `23.5` and never rolls
over. -/
theorem frame_succ_conversion_fails_for_fractional_fps :
    (0 : Rat) < 47/2
    ∧ ¬((convert_current_frame_to_tc ((47 : Rat)/2) 22).bind
          (read_tc_add_one_frame ((47 : Rat)/2))
        = convert_current_frame_to_tc ((47 : Rat)/2) (22 + 1)) := by
  constructor
  · norm_num
  · rw [halfFps_eq]
    decide

/-- Claim C2 witness: fps 24, frame 23 (the spec's rollover boundary). -/
theorem frame_succ_conversion_commutes_for_integer_fps_witness :
    1 ≤ 24
    ∧ ((convert_current_frame_to_tc ((24 : Nat) : Rat) 23).bind
        (read_tc_add_one_frame ((24 : Nat) : Rat))
      = convert_current_frame_to_tc ((24 : Nat) : Rat) (23 + 1)) :=
  ⟨by decide,
   (frame_succ_conversion_commutes_for_integer_fps 24 23 (by decide)).1⟩
